import Mathlib

/-!
# Liquibase Control Tower — consistency engine, shallow embedding

This file embeds the consistency-checking / fix-application / structure-building
engine of the Liquibase Control Tower repository and proves properties of it.

Embedding conventions:

* The working directory is the implicit root; every path is the list of its
  segments relative to the working directory (`join(workingDirectory, x)`
  becomes segment concatenation).
* A file's content is represented by the data the engine actually extracts
  from it with its regexes:
  - a changelog/manifest XML file is represented by the ordered list of the
    values of its `file="..."` attributes (its include references) together
    with a flag recording whether the closing `</databaseChangeLog>` tag is
    present (`lastIndexOf` found it);
  - a change-unit descriptor XML file is represented by its changeSet id,
    author, and the ordered list of the values of its `path="..."` attributes
    (its sqlFile references);
  - `tag-database.xml` is represented by the value of the `tag="..."`
    attribute of its `tagDatabase` element;
  - a SQL payload is its raw text.
* `fs.access`/`existsSync` succeed on files and directories alike, which the
  model mirrors; reading a directory as a file (which would throw in Node)
  is outside the modelled state space and is represented by the read
  returning the entry content found at the path, if any.
* String surgery (`toUpperCase`, `split`, `replace` of a first occurrence,
  regex matching) is re-implemented over `String.data` character lists so that
  every definition is executable and provable by structural induction.
-/

/-! ## String helpers (JavaScript string primitives over `String.data`) -/

/-- `pre` is a prefix of `s` (JS `String.prototype.startsWith`). -/
def strStartsWith (s pre : String) : Bool :=
  pre.data.isPrefixOf s.data

/-- `suf` is a suffix of `s` (JS `String.prototype.endsWith`). -/
def strEndsWith (s suf : String) : Bool :=
  suf.data.isSuffixOf s.data

/-- The character `c` occurs in `s` (JS `String.prototype.includes` for a
single character, as used for `file.includes('/')`). -/
def strHasChar (s : String) (c : Char) : Bool :=
  s.data.contains c

/-- Leading segment of `s` whose characters all satisfy `p` (the greedy match
of a character-class `+` regex anchored at the start). -/
def strTakeWhile (p : Char → Bool) (s : String) : String :=
  String.mk (s.data.takeWhile p)

/-- Drop the first `n` characters of `s`. -/
def strDrop (s : String) (n : Nat) : String :=
  String.mk (s.data.drop n)

/-- JS `String.prototype.toUpperCase` restricted to ASCII (`Char.toUpper`
uppercases exactly the ASCII letters, as the source relies on). -/
def strToUpper (s : String) : String :=
  String.mk (s.data.map Char.toUpper)

/-- JS `String.prototype.toLowerCase` restricted to ASCII. -/
def strToLower (s : String) : String :=
  String.mk (s.data.map Char.toLower)

/-- Does the character-list `pat` occur as a contiguous sublist of `l`? -/
def listHasInfix (pat : List Char) : List Char → Bool
  | [] => pat.isPrefixOf []
  | c :: cs => pat.isPrefixOf (c :: cs) || listHasInfix pat cs

/-- `pat` occurs as a substring of `s` (JS `String.prototype.includes`). -/
def strHasSubstr (s pat : String) : Bool :=
  listHasInfix pat.data s.data

/-- Replace the first occurrence of `pat` in `l` by `rep`, scanning left to
right (the behaviour of JS `String.prototype.replace` with a string pattern).
If `pat` does not occur, the list is unchanged. -/
def replaceFirstList (pat rep : List Char) : List Char → List Char
  | [] => if pat.isPrefixOf ([] : List Char) then rep else []
  | c :: cs =>
    if pat.isPrefixOf (c :: cs) then rep ++ (c :: cs).drop pat.length
    else c :: replaceFirstList pat rep cs

/-- JS `s.replace(pat, rep)` with a plain-string pattern: first occurrence
only. -/
def strReplaceFirst (s pat rep : String) : String :=
  String.mk (replaceFirstList pat.data rep.data s.data)

/-- Split a character list at `'/'` separators (the segments of a
slash-separated relative path). -/
def splitSlashList : List Char → List (List Char)
  | [] => [[]]
  | c :: cs =>
    match splitSlashList cs with
    | [] => [[]]
    | g :: gs => if c = '/' then [] :: g :: gs else (c :: g) :: gs

/-- Path segments of a slash-separated string, used to resolve a relative
reference like `tables/employee.xml` against the working directory. -/
def splitSlash (s : String) : List String :=
  (splitSlashList s.data).map String.mk

/-- Node `path.basename(p, ext)`: the part after the last `/`, with the
suffix `ext` removed when it is a proper suffix. -/
def jsBasename (p ext : String) : String :=
  let base := ((splitSlash p).getLast? ).getD p
  if strEndsWith base ext && base ≠ ext then
    String.mk (base.data.take (base.data.length - ext.data.length))
  else base

/-! ## The on-disk state -/

/-- The content of one file, represented by the data the engine extracts from
it (see the header comment). -/
inductive FileContent where
  /-- A raw SQL payload. -/
  | sql (text : String)
  /-- `tag-database.xml`, represented by the value of its `tag="..."`
  attribute (`<tagDatabase tag="49.0.0"/>` is `tagFile "49.0.0"`). -/
  | tagFile (tagAttr : String)
  /-- A manifest: the ordered values of its `file="..."` attributes, and
  whether `</databaseChangeLog>` occurs in the text. -/
  | changelog (includes : List String) (hasClosingTag : Bool)
  /-- A change-unit descriptor: changeSet id, author, and the ordered values
  of its `path="..."` attributes. -/
  | descriptor (changeSetId author : String) (pathRefs : List String)
deriving DecidableEq, Repr

/-- The files and directories below the working directory. `files` associates
a segment path with a content; `dirs` lists the directory paths. -/
structure FS where
  files : List (List String × FileContent)
  dirs : List (List String)
deriving DecidableEq, Repr

/-- The empty working directory. -/
def FS.empty : FS := ⟨[], []⟩

/-- First-match lookup in an association list of files. -/
def lookupEntry : List (List String × FileContent) → List String → Option FileContent
  | [], _ => none
  | e :: es, p => if e.1 = p then some e.2 else lookupEntry es p

/-- Replace the first entry keyed `p`, or append a new one. -/
def setEntry : List (List String × FileContent) → List String → FileContent →
    List (List String × FileContent)
  | [], p, c => [(p, c)]
  | e :: es, p, c => if e.1 = p then (p, c) :: es else e :: setEntry es p c

/-- Content stored at path `p`, if a file is there (`fs.readFile`). -/
def FS.read (fs : FS) (p : List String) : Option FileContent :=
  lookupEntry fs.files p

/-- A file exists at `p`. -/
def FS.fileExists (fs : FS) (p : List String) : Bool :=
  (fs.read p).isSome

/-- A directory exists at `p`. -/
def FS.dirExists (fs : FS) (p : List String) : Bool :=
  fs.dirs.contains p

/-- `fs.access` / `existsSync`: true on files and directories alike. -/
def FS.access (fs : FS) (p : List String) : Bool :=
  fs.fileExists p || fs.dirExists p

/-- `fs.writeFile`: replace the content at `p` in place if present, else
append a new entry. -/
def FS.write (fs : FS) (p : List String) (c : FileContent) : FS :=
  { fs with files := setEntry fs.files p c }

/-- `fs.mkdir` (one level; the source always creates parents explicitly or
relies on `recursive: true` for exactly the two levels it makes). -/
def FS.mkdir (fs : FS) (p : List String) : FS :=
  if fs.dirs.contains p then fs else { fs with dirs := fs.dirs ++ [p] }

/-- Delete the file at `p`. -/
def FS.erase (fs : FS) (p : List String) : FS :=
  { fs with files := fs.files.filter (fun e => e.1 ≠ p) }

/-- `fs.rename`: move the content at `old` to `new` (no-op if `old` is
absent, in which case the real call throws; callers model that branch). -/
def FS.rename (fs : FS) (old new : List String) : FS :=
  match fs.read old with
  | none => fs
  | some c => (fs.erase old).write new c

/-- The name of the entry `p` when it lies directly inside directory `d`. -/
def childName (d p : List String) : Option String :=
  if p.length = d.length + 1 && decide (p.take d.length = d) then p.getLast? else none

/-- `fs.readdir`: names of the entries (files, then directories) directly
inside `d`, in listing order. -/
def FS.readdir (fs : FS) (d : List String) : List String :=
  fs.files.filterMap (fun e => childName d e.1) ++ fs.dirs.filterMap (fun p => childName d p)

/-- Well-formed state: no two entries (files or directories) share a path. -/
def FS.WF (fs : FS) : Prop :=
  (fs.files.map Prod.fst ++ fs.dirs).Nodup

/-! ## Log entries and check results -/

/-- One log line returned by a check endpoint (`{ type, category, message }`). -/
structure LogEntry where
  type : String
  category : String
  message : String
deriving DecidableEq, Repr

/-- Response shape of the check endpoints: the error counter and the logs,
accumulated together (each `logs.push` of an error is paired with
`errors++`). -/
structure CheckResult where
  errors : Nat
  logs : List LogEntry
deriving DecidableEq, Repr

/-! ## Shared names and extraction helpers -/

/-- `tag-database.xml`. -/
def tagName : String := "tag-database.xml"

/-- `changelog-SIO2-all.xml`, the root manifest. -/
def mainName : String := "changelog-SIO2-all.xml"

/-- `changelog-<version>-<CATEGORY_UPPER>.xml` (the category manifest name
computed by the check endpoints from `version` and `category`). -/
def masterChangelogName (version category : String) : String :=
  "changelog-" ++ version ++ "-" ++ strToUpper category ++ ".xml"

/-- The values matched by `/file="[^"]+"/g` over a file's text: on the
representation of contents, the include list of a manifest; other contents
carry no `file=` attributes. -/
def fileAttrs : FileContent → List String
  | .changelog incs _ => incs
  | _ => []

/-- The values matched by `/path="[^"]+"/g`: the sqlFile references of a
descriptor; other contents carry no `path=` attributes. -/
def pathAttrs : FileContent → List String
  | .descriptor _ _ ps => ps
  | _ => []

/-- Include list of the manifest stored at root-level file `name`, empty when
the file is absent. -/
def manifestIncludes (fs : FS) (name : String) : List String :=
  match fs.read [name] with
  | some c => fileAttrs c
  | none => []

/-- `f` looks like a change-unit descriptor to the checkers:
`f.endsWith('.xml') && !f.startsWith('changelog-')`. -/
def isDescriptorName (f : String) : Bool :=
  strEndsWith f ".xml" && !(strStartsWith f "changelog-")

/-! ## `POST /api/get-version` (src/server/index.js:176-206)

The endpoint reads `tag-database.xml` and matches
`/<tagDatabase\s+tag="(\d+)\.0\.0"/`: a maximal digit run at the start of the
tag attribute followed by `.0.0`. Both a missing file and a non-matching file
answer 404; the model collapses both to `none`. -/

/-- Version token extracted from the tag attribute. -/
def parseTagVersion (attr : String) : Option String :=
  let ds := strTakeWhile Char.isDigit attr
  if ds ≠ "" && strStartsWith (strDrop attr ds.data.length) ".0.0" then some ds
  else none

/-- `getVersion`: the version the server answers for this state. -/
def getVersion (fs : FS) : Option String :=
  match fs.read [tagName] with
  | some (.tagFile attr) => parseTagVersion attr
  | _ => none

/-! ## `POST /api/check-orphaned` (src/server/index.js:208-275)

Identical code also appears in the other server revisions in the repository
(`part_009:204`, `part_011:452`). -/

/-- Message for a descriptor present on disk but not declared. -/
def orphanMsg (category f masterChangelog : String) : String :=
  "XML file \x27" ++ category ++ "/" ++ f ++ "\x27 exists but is not declared in "
    ++ masterChangelog

/-- Message for a payload without a matching descriptor. -/
def sqlNoXmlMsg (category sqlFile : String) : String :=
  "SQL file \x27" ++ category ++ "/sql/" ++ sqlFile ++ "\x27 has no corresponding XML file"

/-- `checkOrphaned`: descriptors not declared in the category manifest, and
payloads without a descriptor. -/
def checkOrphaned (fs : FS) (category version : String) : CheckResult :=
  let masterChangelog := masterChangelogName version category
  let declaredFiles : List String := manifestIncludes fs masterChangelog
  let xmlFiles : List String :=
    if fs.access [category] then (fs.readdir [category]).filter isDescriptorName
    else []
  let r1 : Nat × List LogEntry := xmlFiles.foldl
    (fun acc f =>
      if !(declaredFiles.contains (category ++ "/" ++ f)) && !(declaredFiles.contains f) then
        (acc.1 + 1, acc.2 ++ [⟨"error", category, orphanMsg category f masterChangelog⟩])
      else acc)
    (0, [])
  let sqlFiles : List String :=
    if fs.access [category, "sql"] then fs.readdir [category, "sql"] else []
  let r2 : Nat × List LogEntry := sqlFiles.foldl
    (fun acc sqlFile =>
      if strEndsWith sqlFile ".sql" then
        let baseName := strReplaceFirst sqlFile ".sql" ""
        if !(fs.access [category, baseName ++ ".xml"]) then
          (acc.1 + 1, acc.2 ++ [⟨"error", category, sqlNoXmlMsg category sqlFile⟩])
        else acc
      else acc)
    r1
  ⟨r2.1, r2.2⟩

/-! ## `POST /api/check-references` (src/server/index.js:277-343) -/

/-- Resolution of an include reference: slash-containing references resolve
against the working directory, bare filenames against the category directory. -/
def resolveRefPath (category file : String) : List String :=
  if strHasChar file '/' then splitSlash file else [category, file]

/-- Message for an include whose target file does not exist. -/
def danglingRefMsg (file masterChangelog : String) : String :=
  "File \x27" ++ file ++ "\x27 referenced in " ++ masterChangelog ++ " does not exist"

/-- Message for a descriptor whose sqlFile reference does not resolve. -/
def danglingSqlMsg (sqlPath category xmlFile : String) : String :=
  "SQL file \x27" ++ sqlPath ++ "\x27 referenced in \x27" ++ category ++ "/" ++ xmlFile
    ++ "\x27 does not exist"

/-- `checkReferences`: dangling includes of the category manifest, and
dangling sqlFile references inside descriptors. -/
def checkReferences (fs : FS) (category version : String) : CheckResult :=
  let masterChangelog := masterChangelogName version category
  let references : List String := manifestIncludes fs masterChangelog
  let r1 : Nat × List LogEntry := references.foldl
    (fun acc file =>
      if !(fs.access (resolveRefPath category file)) then
        (acc.1 + 1, acc.2 ++ [⟨"error", category, danglingRefMsg file masterChangelog⟩])
      else acc)
    (0, [])
  let xmlFiles : List String :=
    if fs.access [category] then (fs.readdir [category]).filter isDescriptorName
    else []
  let r2 : Nat × List LogEntry := xmlFiles.foldl
    (fun acc xmlFile =>
      let sqlRefs : List String :=
        match fs.read [category, xmlFile] with
        | some c => pathAttrs c
        | none => []
      sqlRefs.foldl
        (fun acc2 sqlPath =>
          if !(fs.access ([category] ++ splitSlash sqlPath)) then
            (acc2.1 + 1, acc2.2 ++ [⟨"error", category, danglingSqlMsg sqlPath category xmlFile⟩])
          else acc2)
        acc)
    r1
  ⟨r2.1, r2.2⟩

/-! ## `POST /api/check-main-changelog` (src/server/index.js:345-387) -/

/-- The hard-coded category list of `check-main-changelog`. -/
def fixedCategories : List String :=
  ["TABLES", "VIEWS", "MATERIALIZED_VIEWS", "PROCEDURES", "SEQUENCES"]

/-- Message for a category manifest that exists but is not declared by the
root manifest. -/
def mainUndeclaredMsg (categoryChangelog : String) : String :=
  "Existing changelog \x27" ++ categoryChangelog
    ++ "\x27 is not declared in changelog-SIO2-all.xml"

/-- `checkMainChangelog`: fixed-list category manifests that exist on disk
but are not included by the root manifest (substring test
`content.includes('file="<name>"')`, modelled as include-list membership). -/
def checkMainChangelog (fs : FS) (version : String) : CheckResult :=
  match fs.read [mainName] with
  | none =>
    ⟨1, [⟨"error", "system", "Main changelog file not found: changelog-SIO2-all.xml"⟩]⟩
  | some c =>
    let content := fileAttrs c
    fixedCategories.foldl
      (fun acc category =>
        let categoryChangelog := "changelog-" ++ version ++ "-" ++ category ++ ".xml"
        if fs.access [categoryChangelog] && !(content.contains categoryChangelog) then
          ⟨acc.errors + 1, acc.logs ++ [⟨"error", "main_changelog", mainUndeclaredMsg categoryChangelog⟩]⟩
        else acc)
      ⟨0, []⟩

/-! ## `POST /api/check-changelog-declarations` (src/server/index.js:781-851) -/

/-- Full match of the capture group `changelog-\d+-[A-Z_]+\.xml` used to
collect the category manifests declared by the root manifest (the group is
delimited by the quotes of the attribute, so the whole value must match). -/
def isCategoryManifestName (s : String) : Bool :=
  if strStartsWith s "changelog-" then
    let rest := strDrop s 10
    let ds := strTakeWhile Char.isDigit rest
    if ds ≠ "" then
      let rest2 := strDrop rest ds.data.length
      if strStartsWith rest2 "-" then
        let rest3 := strDrop rest2 1
        let us := strTakeWhile (fun ch => ch.isUpper || ch = '_') rest3
        us ≠ "" && strDrop rest3 us.data.length = ".xml"
      else false
    else false
  else false

/-- Does the anchored-at-end pattern `changelog-<version>-[A-Z_]+\.xml$`
match starting exactly at the beginning of `s`? -/
def declPatternAt (version s : String) : Bool :=
  if strStartsWith s ("changelog-" ++ version ++ "-") then
    let rest := strDrop s ("changelog-" ++ version ++ "-").data.length
    let us := strTakeWhile (fun ch => ch.isUpper || ch = '_') rest
    us ≠ "" && strDrop rest us.data.length = ".xml"
  else false

/-- `new RegExp(`changelog-${version}-[A-Z_]+\.xml$`).test(f)`: the pattern
is anchored at the end only, so it may match starting at any position. -/
def declPatternTest (version f : String) : Bool :=
  (List.range (f.data.length + 1)).any (fun i => declPatternAt version (strDrop f i))

/-- Message for a category manifest file not declared by the root manifest. -/
def declUndeclaredMsg (f : String) : String :=
  "Changelog file \x27" ++ f ++ "\x27 exists but is not declared in changelog-SIO2-all.xml"

/-- `checkChangelogDeclarations`: root-directory files matching the category
manifest pattern for this version that are not declared in the root manifest. -/
def checkChangelogDeclarations (fs : FS) (version : String) : CheckResult :=
  match fs.read [mainName] with
  | none =>
    ⟨1, [⟨"error", "system", "Main changelog (changelog-SIO2-all.xml) not found"⟩]⟩
  | some c =>
    let declaredChangelogs := (fileAttrs c).filter isCategoryManifestName
    let files := fs.readdir []
    let r := files.foldl
      (fun (acc : CheckResult) file =>
        if file ≠ mainName && file ≠ tagName && declPatternTest version file then
          if !(declaredChangelogs.contains file) then
            ⟨acc.errors + 1, acc.logs ++ [⟨"error", "system", declUndeclaredMsg file⟩]⟩
          else acc
        else acc)
      ⟨0, []⟩
    if r.errors = 0 then
      ⟨r.errors, r.logs ++ [⟨"success", "system", "All changelog files are properly declared"⟩]⟩
    else r

/-! ## The structure-check pipeline (src/src/utils/version.ts:23-143)

`StructureChecker.check` resolves the version through `/api/get-version`,
logging `Missing tag-database.xml` on any 404, then runs `check-orphaned` and
`check-references` for each of its five fixed categories — with the resolved
version, or with `null` when resolution failed (the JSON `null` prints as the
string `"null"` inside the template literal that builds the manifest name). -/

/-- The five categories `StructureChecker` iterates. -/
def checkerCategories : List String :=
  ["tables", "views", "materialized_views", "procedures", "sequences"]

/-- The string a possibly-null version renders to inside a template literal. -/
def versionParam : Option String → String
  | none => "null"
  | some v => v

/-- The error log emitted when the version cannot be resolved. -/
def missingTagLog : LogEntry := ⟨"error", "system", "Missing tag-database.xml"⟩

/-- `StructureChecker.check`: the full check run (info logs, the tag step,
both category-level checks per fixed category, and the summary log).
`errors` is `totalErrors`. -/
def structureCheck (wd : String) (fs : FS) : CheckResult :=
  let initLogs : List LogEntry :=
    [⟨"info", "system", "=== Liquibase Structure Checker ==="⟩,
     ⟨"info", "system", "Checking directory: " ++ wd⟩]
  let tagStep : Nat × List LogEntry × Option String :=
    match getVersion fs with
    | some v => (0, [⟨"success", "system", "Found tag-database.xml"⟩], some v)
    | none => (1, [missingTagLog], none)
  let res : Nat × List LogEntry := checkerCategories.foldl
    (fun acc category =>
      let o := checkOrphaned fs category (versionParam tagStep.2.2)
      let r := checkReferences fs category (versionParam tagStep.2.2)
      (acc.1 + o.errors + r.errors,
       acc.2 ++ [⟨"info", "system", "\nChecking " ++ category ++ "..."⟩] ++ o.logs ++ r.logs))
    (tagStep.1, initLogs ++ tagStep.2.1)
  let summary : LogEntry :=
    ⟨if res.1 > 0 then "error" else "success", "summary",
     if res.1 = 0 then "All checks passed successfully!"
     else "Found " ++ toString res.1 ++ " error(s)"⟩
  ⟨res.1, res.2 ++ [summary]⟩

/-! ## `POST /api/build-structure` (src/server/index.js:389-545) -/

/-- One requested change unit: name and optional payload content (JS
`file.content || stub` treats the empty string like a missing content). -/
structure BuildFile where
  name : String
  content : String
deriving DecidableEq, Repr

/-- One requested category with its change units. -/
structure BuildCategory where
  name : String
  files : List BuildFile
deriving DecidableEq, Repr

/-- The `config` payload of `build-structure`. -/
structure BuildConfig where
  author : String
  version : String
  categories : List BuildCategory
deriving DecidableEq, Repr

/-- The payload text written for a unit: the supplied content, or the stub
when the supplied content is falsy. -/
def payloadText (f : BuildFile) : String :=
  if f.content = "" then "-- Add your SQL here for " ++ f.name else f.content

/-- The descriptor content written for a unit. -/
def builtDescriptor (author : String) (f : BuildFile) : FileContent :=
  .descriptor f.name author ["sql/" ++ f.name ++ ".sql"]

/-- Per-category phase of `build-structure`: make the directories, snapshot
the existing manifest includes, create descriptor and payload when absent,
accumulate the include path when new, then rewrite the category manifest. -/
def buildCategory (author version : String) (fs : FS) (category : BuildCategory) : FS :=
  if category.files ≠ [] then
    let fsb := (fs.mkdir [category.name]).mkdir [category.name, "sql"]
    let changelogName := "changelog-" ++ version ++ "-" ++ strToUpper category.name ++ ".xml"
    let existingIncludes : List String :=
      if fsb.access [changelogName] then manifestIncludes fsb changelogName else []
    let step := category.files.foldl
      (fun (st : FS × List String) file =>
        let fsx := st.1
        let fsy :=
          if fsx.access [category.name, file.name ++ ".xml"] then fsx
          else fsx.write [category.name, file.name ++ ".xml"] (builtDescriptor author file)
        let fsz :=
          if fsy.access [category.name, "sql", file.name ++ ".sql"] then fsy
          else fsy.write [category.name, "sql", file.name ++ ".sql"] (.sql (payloadText file))
        let includePath := category.name ++ "/" ++ file.name ++ ".xml"
        (fsz, if st.2.contains includePath then st.2 else st.2 ++ [includePath]))
      (fsb, existingIncludes)
    step.1.write [changelogName] (.changelog step.2 true)
  else fs

/-- Root-manifest phase of `build-structure` and the result flag: `true` is
the 200 `{success: true}` response; `false` is the 500 path taken when an
existing root manifest has no closing tag (`mainChangelogContent` stays
undefined and the final `writeFile` throws), with every earlier write kept. -/
def buildMain (version : String) (categories : List BuildCategory) (fs : FS) : FS × Bool :=
  match fs.read [mainName] with
  | some c =>
    match c with
    | .changelog existingIncludes true =>
      let newIncludes := ((categories.filter (fun cat => cat.files ≠ [])).map
          (fun cat => "changelog-" ++ version ++ "-" ++ strToUpper cat.name ++ ".xml")).filter
        (fun file => !(existingIncludes.contains file))
      (fs.write [mainName] (.changelog (existingIncludes ++ newIncludes) true), true)
    | _ => (fs, false)
  | none =>
    let includes := "tag-database.xml" :: (categories.filter (fun cat => cat.files ≠ [])).map
      (fun cat => "changelog-" ++ version ++ "-" ++ strToUpper cat.name ++ ".xml")
    (fs.write [mainName] (.changelog includes true), true)

/-- `buildStructure`: create the tag file if absent, process every category
with files, then declare the category manifests in the root manifest. -/
def buildStructure (fs0 : FS) (config : BuildConfig) : FS × Bool :=
  let fs1 :=
    if fs0.access [tagName] then fs0
    else fs0.write [tagName] (.tagFile (config.version ++ ".0.0"))
  let fs2 := config.categories.foldl (buildCategory config.author config.version) fs1
  buildMain config.version config.categories fs2

/-! ## `POST /api/build-structure`, revision `src/unnamed/part_011:655-843`

This revision special-cases a category named `data` (alternate manifest
names) and — unlike the revision above — **always** writes the payload file:
`// Always write the SQL content, whether the file exists or not`
(part_011:729-731). -/

/-- Category manifest path used by the part_011 revision. -/
def categoryChangelogNamePart011 (version : String) (cat : String) : String :=
  if strToLower cat = "data" then "changelog-Order-Managers-Param-DATA.xml"
  else "changelog-" ++ version ++ "-" ++ strToUpper cat ++ ".xml"

/-- Per-category phase of the part_011 revision; the flag tracks the
`isDataCategory` variable, assigned inside the per-file loop. -/
def buildCategoryPart011 (author version : String) (st : FS × Bool)
    (category : BuildCategory) : FS × Bool :=
  if category.files ≠ [] then
    let fs := st.1
    let fsb := (fs.mkdir [category.name]).mkdir [category.name, "sql"]
    let changelogName := categoryChangelogNamePart011 version category.name
    let existingIncludes : List String :=
      if fsb.access [changelogName] then manifestIncludes fsb changelogName else []
    let step := category.files.foldl
      (fun (st2 : FS × List String) file =>
        let fsx := st2.1
        let fsy :=
          if fsx.access [category.name, file.name ++ ".xml"] then fsx
          else fsx.write [category.name, file.name ++ ".xml"] (builtDescriptor author file)
        let fsz := fsy.write [category.name, "sql", file.name ++ ".sql"] (.sql (payloadText file))
        let includePath := category.name ++ "/" ++ file.name ++ ".xml"
        (fsz, if st2.2.contains includePath then st2.2 else st2.2 ++ [includePath]))
      (fsb, existingIncludes)
    (step.1.write [changelogName] (.changelog step.2 true), strToLower category.name = "data")
  else st

/-- Root-manifest phase of the part_011 revision. When `isDataCategory` holds
and the target manifest is missing, the creation branch dereferences the
loop-scoped `category` binding after the loop, which throws at run time; the
model returns the partial state with `false`. -/
def buildMainPart011 (version : String) (categories : List BuildCategory)
    (fs : FS) (isData : Bool) : FS × Bool :=
  let mainPath := if isData then "changelog-Order-Managers-Param-DATA.xml" else mainName
  match fs.read [mainPath] with
  | some c =>
    match c with
    | .changelog existingIncludes true =>
      let newIncludes := ((categories.filter
          (fun cat => cat.files ≠ [] && strToLower cat.name ≠ "data")).map
          (fun cat => "changelog-" ++ version ++ "-" ++ strToUpper cat.name ++ ".xml")).filter
        (fun file => !(existingIncludes.contains file))
      (fs.write [mainPath] (.changelog (existingIncludes ++ newIncludes) true), true)
    | _ => (fs, false)
  | none =>
    if isData then (fs, false)
    else
      let includes := "tag-database.xml" :: (categories.filter (fun cat => cat.files ≠ [])).map
        (fun cat => "changelog-" ++ version ++ "-" ++ strToUpper cat.name ++ ".xml")
      (fs.write [mainPath] (.changelog includes true), true)

/-- `build-structure` as implemented in the part_011 revision. -/
def buildStructurePart011 (fs0 : FS) (config : BuildConfig) : FS × Bool :=
  let fs1 :=
    if fs0.access [tagName] then fs0
    else fs0.write [tagName] (.tagFile (config.version ++ ".0.0"))
  let st := config.categories.foldl (buildCategoryPart011 config.author config.version) (fs1, false)
  buildMainPart011 config.version config.categories st.1 st.2

/-! ## `POST /api/apply-fix` — `add-to-changelog` (src/server/index.js:623-674)

Order of the handler: missing-field guard (falsy field answers 400), access
check on the manifest (missing manifest throws), already-included check on the
raw text (`content.includes('file="<xmlFile>"')`, an attribute-value
membership on the representation), closing-tag check, insertion of exactly
one include line before the closing tag, reformat, write. The `Bool` of the
result is `true` exactly on the `{success: true}` responses. -/

/-- `add-to-changelog` as implemented in `src/server/index.js`. -/
def applyAddToChangelog (fs : FS) (xmlFile changelogFile : String) : FS × Bool :=
  if xmlFile = "" || changelogFile = "" then (fs, false)
  else if !(fs.access [changelogFile]) then (fs, false)
  else
    match fs.read [changelogFile] with
    | some (.changelog incs hasClosing) =>
      if incs.contains xmlFile then (fs, true)
      else if hasClosing then
        (fs.write [changelogFile] (.changelog (incs ++ [xmlFile]) true), true)
      else (fs, false)
    | _ => (fs, false)

/-! ## `POST /api/apply-fix` — `add-to-changelog`, revision
`src/unnamed/part_009:589-613`

This revision reads the manifest (throwing when absent), checks only for the
closing tag, and inserts the include line **unconditionally** — there is no
already-included check. -/

/-- `add-to-changelog` as implemented in the part_009 revision. -/
def applyAddToChangelogPart009 (fs : FS) (xmlFile changelogFile : String) : FS × Bool :=
  match fs.read [changelogFile] with
  | some (.changelog incs hasClosing) =>
    if hasClosing then
      (fs.write [changelogFile] (.changelog (incs ++ [xmlFile]) true), true)
    else (fs, false)
  | _ => (fs, false)

/-! ## `POST /api/apply-fix` — rename fixes (src/unnamed/part_009:725-778) -/

/-- First match of `/changelog-\d+/` in `l`, replaced by
`changelog-<v>` (the behaviour of `changelogFile.replace(/changelog-\d+/,
'changelog-' + correctVersion)`). -/
def replaceChangelogVersionList (v : List Char) : List Char → List Char
  | [] => []
  | c :: cs =>
    if "changelog-".data.isPrefixOf (c :: cs) then
      let rest := (c :: cs).drop 10
      let ds := rest.takeWhile Char.isDigit
      if ds ≠ [] then "changelog-".data ++ v ++ rest.drop ds.length
      else c :: replaceChangelogVersionList v cs
    else c :: replaceChangelogVersionList v cs

/-- String version of `replaceChangelogVersionList`. -/
def replaceChangelogVersion (s v : String) : String :=
  String.mk (replaceChangelogVersionList v.data s.data)

/-- `mainContent.replace(oldFile, newFile)` on the include-list
representation: rewrite the first occurrence of the substring `old` inside
the first include value that contains it; everything after is untouched. -/
def replaceFirstInIncludes (old new : String) : List String → List String
  | [] => []
  | x :: xs =>
    if strHasSubstr x old then strReplaceFirst x old new :: xs
    else x :: replaceFirstInIncludes old new xs

/-- The version the `fix-version-number` handler extracts from the tag file:
first match of `/tag="(\d+)/` (the leading digit run of the tag attribute),
defaulting to `'49'`. -/
def correctVersionOf (c : FileContent) : String :=
  match c with
  | .tagFile attr =>
    let ds := strTakeWhile Char.isDigit attr
    if ds = "" then "49" else ds
  | _ => "49"

/-- `fix-version-number` (part_009:725-750): read the tag file, compute the
corrected manifest filename, rename the manifest, then patch the **first**
occurrence of the old name in `changelog-SIO2-all.xml` only. A throw from any
file operation answers 500 (`false`), keeping whatever had already been
done. -/
def fixVersionNumber (fs : FS) (changelogFile : String) : FS × Bool :=
  match fs.read [tagName] with
  | none => (fs, false)
  | some tagC =>
    let newFile := replaceChangelogVersion changelogFile (correctVersionOf tagC)
    if !(fs.fileExists [changelogFile]) then (fs, false)
    else
      let fs1 := fs.rename [changelogFile] [newFile]
      match fs1.read [mainName] with
      | some (.changelog incs hasClosing) =>
        (fs1.write [mainName]
          (.changelog (replaceFirstInIncludes changelogFile newFile incs) hasClosing), true)
      | _ => (fs1, false)

/-- First match of `/changelog-(\d+)-([^.]+)/`: the version digits and the
category token (maximal run of non-`.` characters after the hyphen). -/
def matchVersionCategory : List Char → Option (List Char × List Char)
  | [] => none
  | c :: cs =>
    if "changelog-".data.isPrefixOf (c :: cs) then
      let rest := (c :: cs).drop 10
      let ds := rest.takeWhile Char.isDigit
      let rest2 := rest.drop ds.length
      if ds ≠ [] && rest2.head? = some '-' then
        let cat := (rest2.drop 1).takeWhile (fun ch => ch ≠ '.')
        if cat ≠ [] then some (ds, cat) else matchVersionCategory cs
      else matchVersionCategory cs
    else matchVersionCategory cs

/-- `fix-category-name` (part_009:752-778): parse version and category out of
the filename (throwing when the pattern does not match), rename to
`changelog-<version>-<CATEGORY_UPPER>.xml`, then patch the first occurrence
of the old name in `changelog-SIO2-all.xml` only. -/
def fixCategoryName (fs : FS) (changelogFile : String) : FS × Bool :=
  match matchVersionCategory changelogFile.data with
  | none => (fs, false)
  | some (ds, cat) =>
    let newFile := "changelog-" ++ String.mk ds ++ "-" ++ strToUpper (String.mk cat) ++ ".xml"
    if !(fs.fileExists [changelogFile]) then (fs, false)
    else
      let fs1 := fs.rename [changelogFile] [newFile]
      match fs1.read [mainName] with
      | some (.changelog incs hasClosing) =>
        (fs1.write [mainName]
          (.changelog (replaceFirstInIncludes changelogFile newFile incs) hasClosing), true)
      | _ => (fs1, false)

/-! ## Valid identifiers (src/src/utils/validation.ts)

`validateInput` rejects empty input and anything outside
`/^[a-zA-Z0-9_-]+$/`; author, category and unit names pass through it. -/

/-- A character accepted by `validateInput`. -/
def isNameChar (c : Char) : Bool :=
  c.isAlpha || c.isDigit || c = '_' || c = '-'

/-- A string accepted by `validateInput`. -/
def validName (s : String) : Bool :=
  s ≠ "" && s.data.all isNameChar

/-- A numeric version token (the shape `get-version` extracts and the UI
accepts, e.g. `"49"`). -/
def numericVersion (s : String) : Bool :=
  s ≠ "" && s.data.all Char.isDigit

/-- A valid `build-structure` input: validated author, numeric version, and a
collection of categories — validated distinct names (distinct even after
uppercasing, since the category manifest is named by the uppercased category)
— each holding at least one unit with a validated name, distinct within the
category. -/
def ValidConfig (config : BuildConfig) : Prop :=
  validName config.author = true ∧
  numericVersion config.version = true ∧
  config.categories ≠ [] ∧
  (config.categories.map (fun cat => strToUpper cat.name)).Nodup ∧
  ∀ cat ∈ config.categories,
    validName cat.name = true ∧
    cat.files ≠ [] ∧
    (cat.files.map BuildFile.name).Nodup ∧
    ∀ f ∈ cat.files, validName f.name = true

/-! ## Toolkit: strings -/

theorem strData_append (a b : String) : (a ++ b).data = a.data ++ b.data := rfl

theorem strEq_of_data {a b : String} (h : a.data = b.data) : a = b := String.ext h

theorem strAppend_cancel_left {a b c : String} (h : a ++ b = a ++ c) : b = c := by
  apply strEq_of_data
  have hd := congrArg String.data h
  rw [strData_append, strData_append] at hd
  exact List.append_cancel_left hd

theorem strAppend_cancel_right {a b c : String} (h : a ++ c = b ++ c) : a = b := by
  apply strEq_of_data
  have hd := congrArg String.data h
  rw [strData_append, strData_append] at hd
  exact List.append_cancel_right hd

/-- Two string concatenations whose nonempty heads start with different
characters are different. -/
theorem strNe_of_head {a b s t : String} (ha : a.data.head? ≠ b.data.head?)
    (h1 : a.data ≠ []) (h2 : b.data ≠ []) : a ++ s ≠ b ++ t := by
  intro h
  have hd := congrArg String.data h
  rw [strData_append, strData_append] at hd
  cases hx : a.data with
  | nil => exact h1 hx
  | cons c cs =>
    cases hb : b.data with
    | nil => exact h2 hb
    | cons d ds =>
      apply ha
      rw [hx, hb] at hd ⊢
      simp only [List.cons_append, List.cons.injEq] at hd
      simp [hd.1]

/-! ## Toolkit: filesystem lemmas -/

theorem lookupEntry_setEntry_self (l : List (List String × FileContent)) (p : List String)
    (c : FileContent) : lookupEntry (setEntry l p c) p = some c := by
  induction l with
  | nil => simp [setEntry, lookupEntry]
  | cons e es ih =>
    by_cases he : e.1 = p
    · simp [setEntry, lookupEntry, he]
    · simp [setEntry, lookupEntry, he, ih]

theorem lookupEntry_setEntry_ne (l : List (List String × FileContent)) (p q : List String)
    (c : FileContent) (hne : q ≠ p) : lookupEntry (setEntry l p c) q = lookupEntry l q := by
  induction l with
  | nil => simp [setEntry, lookupEntry, Ne.symm hne]
  | cons e es ih =>
    by_cases he : e.1 = p
    · simp [setEntry, lookupEntry, he, Ne.symm hne]
    · by_cases hq : e.1 = q <;> simp [setEntry, lookupEntry, he, hq, ih, hne]

theorem FS.read_write_self (fs : FS) (p : List String) (c : FileContent) :
    (fs.write p c).read p = some c := lookupEntry_setEntry_self fs.files p c

theorem FS.read_write_ne (fs : FS) (p q : List String) (c : FileContent) (hne : q ≠ p) :
    (fs.write p c).read q = fs.read q := lookupEntry_setEntry_ne fs.files p q c hne

theorem FS.dirs_write (fs : FS) (p : List String) (c : FileContent) :
    (fs.write p c).dirs = fs.dirs := rfl

theorem FS.read_mkdir (fs : FS) (p q : List String) : (fs.mkdir p).read q = fs.read q := by
  unfold FS.mkdir FS.read
  split <;> rfl

theorem FS.files_mkdir (fs : FS) (p : List String) : (fs.mkdir p).files = fs.files := by
  unfold FS.mkdir
  split <;> rfl

theorem setEntry_of_not_mem (l : List (List String × FileContent)) (p : List String)
    (c : FileContent) (h : p ∉ l.map Prod.fst) : setEntry l p c = l ++ [(p, c)] := by
  induction l with
  | nil => simp [setEntry]
  | cons e es ih =>
    simp only [List.map_cons, List.mem_cons] at h
    push_neg at h
    simp [setEntry, Ne.symm h.1, ih h.2]

theorem lookupEntry_of_not_mem (l : List (List String × FileContent)) (p : List String)
    (h : p ∉ l.map Prod.fst) : lookupEntry l p = none := by
  induction l with
  | nil => simp [lookupEntry]
  | cons e es ih =>
    simp only [List.map_cons, List.mem_cons] at h
    push_neg at h
    simp [lookupEntry, Ne.symm h.1, ih h.2]

theorem lookupEntry_of_mem (l : List (List String × FileContent)) (p : List String)
    (c : FileContent) (hmem : (p, c) ∈ l) (hnd : (l.map Prod.fst).Nodup) :
    lookupEntry l p = some c := by
  induction l with
  | nil => simp at hmem
  | cons e es ih =>
    simp only [List.map_cons, List.nodup_cons] at hnd
    rcases List.mem_cons.mp hmem with h | h
    · simp [lookupEntry, ← h]
    · have hne : e.1 ≠ p := by
        intro he
        exact hnd.1 (he ▸ List.mem_map_of_mem Prod.fst h)
      simp [lookupEntry, hne, ih h hnd.2]

theorem childName_eq_some {d p : List String} {n : String} :
    childName d p = some n ↔ p = d ++ [n] := by
  constructor
  · intro h
    unfold childName at h
    by_cases hc : p.length = d.length + 1 && decide (p.take d.length = d)
    · rw [if_pos hc] at h
      simp only [Bool.and_eq_true, decide_eq_true_eq] at hc
      have hsplit := (List.take_append_drop d.length p).symm
      have hdlen : (p.drop d.length).length = 1 := by
        rw [List.length_drop, hc.1]; omega
      obtain ⟨x, hx⟩ := List.length_eq_one.mp hdlen
      rw [hc.2, hx] at hsplit
      have hlast : p.getLast? = some x := by
        rw [hsplit, List.getLast?_concat]
      rw [hlast] at h
      rw [hsplit]
      have : x = n := by injection h
      rw [this]
    · rw [if_neg hc] at h; simp at h
  · intro h
    subst h
    unfold childName
    have h1 : (d ++ [n]).length = d.length + 1 := by simp
    have h2 : (d ++ [n]).take d.length = d := List.take_left d [n]
    simp [h1, h2, List.getLast?_concat]

theorem FS.readdir_eq (fs : FS) (d : List String) :
    fs.readdir d = (fs.files.map Prod.fst ++ fs.dirs).filterMap (childName d) := by
  unfold FS.readdir
  rw [List.filterMap_append]
  congr 1
  exact (List.filterMap_map Prod.fst (childName d) fs.files).symm

theorem FS.mem_readdir {fs : FS} {d : List String} {n : String} :
    n ∈ fs.readdir d ↔ (d ++ [n]) ∈ fs.files.map Prod.fst ∨ (d ++ [n]) ∈ fs.dirs := by
  rw [FS.readdir_eq, List.mem_filterMap]
  constructor
  · rintro ⟨p, hp, hc⟩
    rcases List.mem_append.mp hp with h | h
    · exact Or.inl (childName_eq_some.mp hc ▸ h)
    · exact Or.inr (childName_eq_some.mp hc ▸ h)
  · rintro (h | h)
    · exact ⟨d ++ [n], List.mem_append.mpr (Or.inl h), childName_eq_some.mpr rfl⟩
    · exact ⟨d ++ [n], List.mem_append.mpr (Or.inr h), childName_eq_some.mpr rfl⟩

theorem FS.readdir_nodup {fs : FS} (hwf : fs.WF) (d : List String) :
    (fs.readdir d).Nodup := by
  rw [FS.readdir_eq]
  apply List.Nodup.filterMap _ hwf
  intro p q n hp hq
  rw [Option.mem_def, childName_eq_some] at hp hq
  rw [hp, hq]

theorem FS.count_readdir_of_wf {fs : FS} (hwf : fs.WF) (d : List String) (n : String)
    (h : n ∈ fs.readdir d) : (fs.readdir d).count n = 1 :=
  List.count_eq_one_of_mem (fs.readdir_nodup hwf d) h

/-! ## Toolkit: fold characterizations for the check loops -/

theorem foldl_countPair {α : Type} (p : α → Bool) (m : α → LogEntry) (l : List α)
    (init : Nat × List LogEntry) :
    l.foldl (fun acc x => if p x then (acc.1 + 1, acc.2 ++ [m x]) else acc) init
      = (init.1 + (l.filter p).length, init.2 ++ (l.filter p).map m) := by
  induction l generalizing init with
  | nil => simp
  | cons x xs ih =>
    by_cases hx : p x
    · simp only [List.foldl_cons, if_pos hx, ih, List.filter_cons_of_pos hx]
      simp [Nat.add_comm, Nat.add_assoc, Nat.add_left_comm]
    · simp only [List.foldl_cons, if_neg hx, ih, List.filter_cons_of_neg hx]

theorem foldl_countPairGuard {α : Type} (g p : α → Bool) (m : α → LogEntry) (l : List α)
    (init : Nat × List LogEntry) :
    l.foldl (fun acc x => if g x then (if p x then (acc.1 + 1, acc.2 ++ [m x]) else acc) else acc)
        init
      = (init.1 + (l.filter (fun x => g x && p x)).length,
         init.2 ++ (l.filter (fun x => g x && p x)).map m) := by
  induction l generalizing init with
  | nil => simp
  | cons x xs ih =>
    by_cases hg : g x
    · by_cases hx : p x
      · simp only [List.foldl_cons, if_pos hg, if_pos hx, ih]
        rw [@List.filter_cons_of_pos _ (fun y => g y && p y) x xs (by simp [hg, hx])]
        simp [Nat.add_comm, Nat.add_assoc, Nat.add_left_comm]
      · simp only [List.foldl_cons, if_pos hg, if_neg hx, ih]
        rw [@List.filter_cons_of_neg _ (fun y => g y && p y) x xs (by simp [hx])]
    · simp only [List.foldl_cons, if_neg hg, ih]
      rw [@List.filter_cons_of_neg _ (fun y => g y && p y) x xs (by simp [hg])]

theorem foldl_countCR {α : Type} (p : α → Bool) (m : α → LogEntry) (l : List α)
    (init : CheckResult) :
    l.foldl (fun acc x => if p x then ⟨acc.errors + 1, acc.logs ++ [m x]⟩ else acc) init
      = ⟨init.errors + (l.filter p).length, init.logs ++ (l.filter p).map m⟩ := by
  induction l generalizing init with
  | nil => simp
  | cons x xs ih =>
    by_cases hx : p x
    · simp only [List.foldl_cons, if_pos hx, ih, List.filter_cons_of_pos hx]
      simp [Nat.add_comm, Nat.add_assoc, Nat.add_left_comm]
    · simp only [List.foldl_cons, if_neg hx, ih, List.filter_cons_of_neg hx]

theorem foldl_countCRGuard {α : Type} (g p : α → Bool) (m : α → LogEntry) (l : List α)
    (init : CheckResult) :
    l.foldl (fun acc x => if g x then (if p x then ⟨acc.errors + 1, acc.logs ++ [m x]⟩ else acc)
        else acc) init
      = ⟨init.errors + (l.filter (fun x => g x && p x)).length,
         init.logs ++ (l.filter (fun x => g x && p x)).map m⟩ := by
  induction l generalizing init with
  | nil => simp
  | cons x xs ih =>
    by_cases hg : g x
    · by_cases hx : p x
      · simp only [List.foldl_cons, if_pos hg, if_pos hx, ih]
        rw [@List.filter_cons_of_pos _ (fun y => g y && p y) x xs (by simp [hg, hx])]
        simp [Nat.add_comm, Nat.add_assoc, Nat.add_left_comm]
      · simp only [List.foldl_cons, if_pos hg, if_neg hx, ih]
        rw [@List.filter_cons_of_neg _ (fun y => g y && p y) x xs (by simp [hx])]
    · simp only [List.foldl_cons, if_neg hg, ih]
      rw [@List.filter_cons_of_neg _ (fun y => g y && p y) x xs (by simp [hg])]

theorem foldl_countNested {α β : Type} (g : α → List β) (p : β → Bool) (m : α → β → LogEntry)
    (l : List α) (init : Nat × List LogEntry) :
    l.foldl (fun acc x => (g x).foldl
        (fun acc2 y => if p y then (acc2.1 + 1, acc2.2 ++ [m x y]) else acc2) acc) init
      = (init.1 + ((l.map (fun x => ((g x).filter p).map (m x))).flatten).length,
         init.2 ++ (l.map (fun x => ((g x).filter p).map (m x))).flatten) := by
  induction l generalizing init with
  | nil => simp
  | cons x xs ih =>
    simp only [List.foldl_cons, List.map_cons, List.flatten_cons]
    rw [foldl_countPair (fun y => p y) (fun y => m x y) (g x) init, ih]
    simp [Nat.add_comm, Nat.add_assoc, Nat.add_left_comm, List.length_map]

/-! ## Characterizations of the check endpoints -/

/-- Descriptors flagged by the first loop of `checkOrphaned`. -/
def orphanA (fs : FS) (category version : String) : List String :=
  (if fs.access [category] then (fs.readdir [category]).filter isDescriptorName else []).filter
    (fun f =>
      !((manifestIncludes fs (masterChangelogName version category)).contains (category ++ "/" ++ f))
        && !((manifestIncludes fs (masterChangelogName version category)).contains f))

/-- Payloads flagged by the second loop of `checkOrphaned`. -/
def orphanB (fs : FS) (category : String) : List String :=
  (if fs.access [category, "sql"] then fs.readdir [category, "sql"] else []).filter
    (fun sqlFile => strEndsWith sqlFile ".sql"
      && !(fs.access [category, strReplaceFirst sqlFile ".sql" "" ++ ".xml"]))

theorem checkOrphaned_eq (fs : FS) (category version : String) :
    checkOrphaned fs category version =
      ⟨(orphanA fs category version).length + (orphanB fs category).length,
       (orphanA fs category version).map
           (fun f => ⟨"error", category, orphanMsg category f (masterChangelogName version category)⟩)
         ++ (orphanB fs category).map
           (fun sqlFile => ⟨"error", category, sqlNoXmlMsg category sqlFile⟩)⟩ := by
  simp only [checkOrphaned]
  rw [foldl_countPair, foldl_countPairGuard]
  simp [orphanA, orphanB]

/-- Includes flagged by the first loop of `checkReferences`. -/
def danglingA (fs : FS) (category version : String) : List String :=
  (manifestIncludes fs (masterChangelogName version category)).filter
    (fun file => !(fs.access (resolveRefPath category file)))

/-- Descriptor/payload-reference pairs flagged by the second loop of
`checkReferences`, grouped per descriptor. -/
def danglingB (fs : FS) (category : String) : List (List LogEntry) :=
  (if fs.access [category] then (fs.readdir [category]).filter isDescriptorName else []).map
    (fun xmlFile =>
      ((match fs.read [category, xmlFile] with
        | some c => pathAttrs c
        | none => []).filter
          (fun sqlPath => !(fs.access ([category] ++ splitSlash sqlPath)))).map
        (fun sqlPath => ⟨"error", category, danglingSqlMsg sqlPath category xmlFile⟩))

theorem checkReferences_eq (fs : FS) (category version : String) :
    checkReferences fs category version =
      ⟨(danglingA fs category version).length + (danglingB fs category).flatten.length,
       (danglingA fs category version).map
           (fun file => ⟨"error", category, danglingRefMsg file (masterChangelogName version category)⟩)
         ++ (danglingB fs category).flatten⟩ := by
  simp only [checkReferences]
  rw [foldl_countPair, foldl_countNested]
  simp [danglingA, danglingB]

/-- Fixed-list categories flagged by `checkMainChangelog` when the root
manifest is present with include list `content`. -/
def mainUndeclared (fs : FS) (version : String) (content : List String) : List String :=
  fixedCategories.filter
    (fun category =>
      fs.access ["changelog-" ++ version ++ "-" ++ category ++ ".xml"]
        && !(content.contains ("changelog-" ++ version ++ "-" ++ category ++ ".xml")))

theorem checkMainChangelog_eq (fs : FS) (version : String) (c : FileContent)
    (h : fs.read [mainName] = some c) :
    checkMainChangelog fs version =
      ⟨(mainUndeclared fs version (fileAttrs c)).length,
       (mainUndeclared fs version (fileAttrs c)).map
         (fun category => ⟨"error", "main_changelog",
           mainUndeclaredMsg ("changelog-" ++ version ++ "-" ++ category ++ ".xml")⟩)⟩ := by
  simp only [checkMainChangelog, h]
  rw [foldl_countCR]
  simp [mainUndeclared]

/-- Root-directory files flagged by `checkChangelogDeclarations` when the
root manifest is present with include list `mincs`. -/
def declUndeclared (fs : FS) (version : String) (mincs : List String) : List String :=
  (fs.readdir []).filter
    (fun file => (file ≠ mainName && file ≠ tagName && declPatternTest version file)
      && !((mincs.filter isCategoryManifestName).contains file))

theorem checkChangelogDeclarations_eq (fs : FS) (version : String) (c : FileContent)
    (h : fs.read [mainName] = some c) :
    checkChangelogDeclarations fs version =
      (if (declUndeclared fs version (fileAttrs c)).length = 0 then
        ⟨0, (declUndeclared fs version (fileAttrs c)).map
            (fun file => ⟨"error", "system", declUndeclaredMsg file⟩)
          ++ [⟨"success", "system", "All changelog files are properly declared"⟩]⟩
      else
        ⟨(declUndeclared fs version (fileAttrs c)).length,
         (declUndeclared fs version (fileAttrs c)).map
           (fun file => ⟨"error", "system", declUndeclaredMsg file⟩)⟩) := by
  simp only [checkChangelogDeclarations, h]
  rw [foldl_countCRGuard]
  have e1 : List.filter
      (fun x => (decide (x ≠ mainName) && decide (x ≠ tagName) && declPatternTest version x)
        && !(((fileAttrs c).filter isCategoryManifestName).contains x)) (fs.readdir [])
      = declUndeclared fs version (fileAttrs c) := rfl
  rw [e1]
  simp only [Nat.zero_add, List.nil_append]
  by_cases hz : (declUndeclared fs version (fileAttrs c)).length = 0
  · rw [if_pos hz, if_pos hz, hz]
  · rw [if_neg hz, if_neg hz]

theorem filter_error_of_all {α : Type} (A : List α) (m : α → LogEntry)
    (h : ∀ x, (m x).type = "error") :
    (A.map m).filter (fun l => l.type == "error") = A.map m := by
  apply List.filter_eq_self.mpr
  intro e he
  obtain ⟨x, _, hx⟩ := List.mem_map.mp he
  simp [← hx, h x]

/-- C9: for every check operation that returns normally, the `errors` field
equals the number of returned log entries whose `type` is `error`. -/
theorem c9_errors_count_error_logs (fs : FS) (category version : String) :
    (checkOrphaned fs category version).errors
        = ((checkOrphaned fs category version).logs.filter (fun l => l.type == "error")).length ∧
      (checkReferences fs category version).errors
        = ((checkReferences fs category version).logs.filter (fun l => l.type == "error")).length ∧
      (checkMainChangelog fs version).errors
        = ((checkMainChangelog fs version).logs.filter (fun l => l.type == "error")).length ∧
      (checkChangelogDeclarations fs version).errors
        = ((checkChangelogDeclarations fs version).logs.filter (fun l => l.type == "error")).length := by
  refine ⟨?_, ?_, ?_, ?_⟩
  · rw [checkOrphaned_eq]
    simp only [List.filter_append]
    rw [filter_error_of_all _ _ (fun x => rfl), filter_error_of_all _ _ (fun x => rfl)]
    simp
  · rw [checkReferences_eq]
    simp only [List.filter_append]
    rw [filter_error_of_all _ _ (fun x => rfl)]
    have hflat : ((danglingB fs category).flatten.filter (fun l => l.type == "error"))
        = (danglingB fs category).flatten := by
      apply List.filter_eq_self.mpr
      intro e he
      obtain ⟨inner, hin, hmem⟩ := List.mem_flatten.mp he
      obtain ⟨x, _, hx⟩ := List.mem_map.mp hin
      rw [← hx] at hmem
      obtain ⟨y, _, hy⟩ := List.mem_map.mp hmem
      simp [← hy]
    rw [hflat]
    simp
  · cases hmain : fs.read [mainName] with
    | none => simp [checkMainChangelog, hmain]
    | some c =>
      rw [checkMainChangelog_eq fs version c hmain]
      rw [filter_error_of_all _ _ (fun x => rfl)]
      simp
  · cases hmain : fs.read [mainName] with
    | none => simp [checkChangelogDeclarations, hmain]
    | some c =>
      rw [checkChangelogDeclarations_eq fs version c hmain]
      by_cases hz : (declUndeclared fs version (fileAttrs c)).length = 0
      · have hnil : declUndeclared fs version (fileAttrs c) = [] := List.length_eq_zero.mp hz
        simp [hz, hnil]
      · rw [if_neg hz]
        rw [filter_error_of_all _ _ (fun x => rfl)]
        simp

theorem orphanMsg_data (c f m : String) :
    (orphanMsg c f m).data = "XML file \x27".data ++ (c.data ++ ("/".data ++ (f.data
      ++ ("\x27 exists but is not declared in ".data ++ m.data)))) := by
  simp [orphanMsg, strData_append, List.append_assoc]

theorem sqlNoXmlMsg_data (c s : String) :
    (sqlNoXmlMsg c s).data = "SQL file \x27".data ++ (c.data ++ ("/sql/".data ++ (s.data
      ++ "\x27 has no corresponding XML file".data))) := by
  simp [sqlNoXmlMsg, strData_append, List.append_assoc]

theorem orphanMsg_inj {c m f g : String} (h : orphanMsg c f m = orphanMsg c g m) : f = g := by
  have hd := congrArg String.data h
  rw [orphanMsg_data, orphanMsg_data] at hd
  have h1 := List.append_cancel_left hd
  have h2 := List.append_cancel_left h1
  have h3 := List.append_cancel_left h2
  rw [← List.append_assoc, ← List.append_assoc] at h3
  have h4 := List.append_cancel_right h3
  have h5 := List.append_cancel_right h4
  exact strEq_of_data h5

theorem orphanMsg_ne_sqlNoXmlMsg (c f m c2 s : String) :
    orphanMsg c f m ≠ sqlNoXmlMsg c2 s := by
  intro h
  have hd := congrArg String.data h
  rw [orphanMsg_data, sqlNoXmlMsg_data] at hd
  have : ('X' : Char) = 'S' := by
    have hx : ((orphanMsg c f m).data).head? = some 'X' := by rw [orphanMsg_data]; rfl
    have hs : ((sqlNoXmlMsg c2 s).data).head? = some 'S' := by rw [sqlNoXmlMsg_data]; rfl
    rw [h] at hx
    rw [hx] at hs
    injection hs
  simp at this

/-- The number of `UndeclaredDescriptor` findings `checkOrphaned` emits for a
given filename equals that filename's multiplicity in the flagged list. -/
theorem count_orphanLog (fs : FS) (category version f : String) :
    ((checkOrphaned fs category version).logs.count
        ⟨"error", category, orphanMsg category f (masterChangelogName version category)⟩)
      = (orphanA fs category version).count f := by
  rw [checkOrphaned_eq]
  show List.count _ (_ ++ _) = _
  rw [List.count_append]
  have hB : List.count
      (⟨"error", category, orphanMsg category f (masterChangelogName version category)⟩ : LogEntry)
      ((orphanB fs category).map (fun sqlFile => ⟨"error", category, sqlNoXmlMsg category sqlFile⟩))
      = 0 := by
    rw [List.count_eq_zero]
    intro hmem
    obtain ⟨s, _, hs⟩ := List.mem_map.mp hmem
    have : sqlNoXmlMsg category s = orphanMsg category f (masterChangelogName version category) := by
      injection hs
    exact orphanMsg_ne_sqlNoXmlMsg _ _ _ _ _ this.symm
  rw [hB, Nat.add_zero]
  have hinj : Function.Injective
      (fun f => (⟨"error", category, orphanMsg category f (masterChangelogName version category)⟩ : LogEntry)) := by
    intro a b hab
    simp only [LogEntry.mk.injEq] at hab
    exact orphanMsg_inj hab.2.2
  exact List.count_map_of_injective _ _ hinj f

/-- C8: every `.xml` file physically present in the category directory, not a
manifest by name and not declared in the category manifest under either its
qualified or bare name, is reported by `checkOrphaned` as exactly one
`UndeclaredDescriptor` finding in that run. -/
theorem c8_undeclared_descriptor_exactly_once (fs : FS) (category version f : String)
    (hwf : fs.WF) (hacc : fs.access [category] = true)
    (hmem : f ∈ fs.readdir [category])
    (hxml : strEndsWith f ".xml" = true)
    (hncl : strStartsWith f "changelog-" = false)
    (hfull : (manifestIncludes fs (masterChangelogName version category)).contains
      (category ++ "/" ++ f) = false)
    (hshort : (manifestIncludes fs (masterChangelogName version category)).contains f = false) :
    ((checkOrphaned fs category version).logs.count
        ⟨"error", category, orphanMsg category f (masterChangelogName version category)⟩) = 1 := by
  rw [count_orphanLog]
  have hmemA : f ∈ orphanA fs category version := by
    unfold orphanA
    rw [if_pos hacc]
    refine List.mem_filter.mpr ⟨List.mem_filter.mpr ⟨hmem, ?_⟩, ?_⟩
    · simp [isDescriptorName, hxml, hncl]
    · simp only [Bool.and_eq_true, Bool.not_eq_true']
      exact ⟨hfull, hshort⟩
  have hnd : (orphanA fs category version).Nodup := by
    unfold orphanA
    rw [if_pos hacc]
    exact ((List.filter_sublist _).trans (List.filter_sublist _)).nodup (fs.readdir_nodup hwf _)
  exact List.count_eq_one_of_mem hnd hmemA

/-- C10: a descriptor declared in the category manifest under either the
category-qualified path or the bare filename produces no
`UndeclaredDescriptor` finding. -/
theorem c10_short_path_counts_as_declared (fs : FS) (category version f : String)
    (hdecl : (manifestIncludes fs (masterChangelogName version category)).contains
        (category ++ "/" ++ f) = true
      ∨ (manifestIncludes fs (masterChangelogName version category)).contains f = true) :
    ((checkOrphaned fs category version).logs.count
        ⟨"error", category, orphanMsg category f (masterChangelogName version category)⟩) = 0 := by
  rw [count_orphanLog]
  rw [List.count_eq_zero]
  intro hmemA
  unfold orphanA at hmemA
  by_cases hacc : fs.access [category] = true
  · rw [if_pos hacc] at hmemA
    have hpred := (List.mem_filter.mp hmemA).2
    simp at hpred
    rcases hdecl with h | h
    · exact hpred.1 (by simpa using h)
    · exact hpred.2 (by simpa using h)
  · rw [if_neg hacc] at hmemA
    simp at hmemA

theorem declUndeclaredMsg_inj {f g : String} (h : declUndeclaredMsg f = declUndeclaredMsg g) :
    f = g := by
  have hd := congrArg String.data h
  simp only [declUndeclaredMsg, strData_append, List.append_assoc] at hd
  have h1 := List.append_cancel_left hd
  exact strEq_of_data (List.append_cancel_right h1)

/-- The number of `UndeclaredCategoryManifest` findings
`checkChangelogDeclarations` emits for a given filename equals that
filename's multiplicity in the flagged list. -/
theorem count_declLog (fs : FS) (version f : String) (c : FileContent)
    (h : fs.read [mainName] = some c) :
    ((checkChangelogDeclarations fs version).logs.count
        ⟨"error", "system", declUndeclaredMsg f⟩)
      = (declUndeclared fs version (fileAttrs c)).count f := by
  rw [checkChangelogDeclarations_eq fs version c h]
  by_cases hz : (declUndeclared fs version (fileAttrs c)).length = 0
  · have hnil : declUndeclared fs version (fileAttrs c) = [] := List.length_eq_zero.mp hz
    rw [if_pos hz, hnil]
    simp
  · rw [if_neg hz]
    show List.count _ (List.map _ _) = _
    have hinj : Function.Injective
        (fun file => (⟨"error", "system", declUndeclaredMsg file⟩ : LogEntry)) := by
      intro a b hab
      simp only [LogEntry.mk.injEq] at hab
      exact declUndeclaredMsg_inj hab.2.2
    exact List.count_map_of_injective _ _ hinj f

/-- C6 (amended): with the root manifest present, `checkChangelogDeclarations`
reports an `UndeclaredCategoryManifest` finding for `f` exactly once iff `f`
is a root-directory entry other than the root manifest and the tag file whose
name matches `changelog-<version>-<UPPER>.xml` and which is not declared (as
a name matching the declared-manifest pattern) by the root manifest — whether
the manifest file itself is empty is irrelevant. -/
theorem c6_undeclared_manifest_iff (fs : FS) (version f : String) (c : FileContent)
    (hwf : fs.WF) (hmain : fs.read [mainName] = some c) :
    ((checkChangelogDeclarations fs version).logs.count
        ⟨"error", "system", declUndeclaredMsg f⟩) = 1
      ↔ (f ∈ fs.readdir [] ∧ f ≠ mainName ∧ f ≠ tagName ∧ declPatternTest version f = true
          ∧ ((fileAttrs c).filter isCategoryManifestName).contains f = false) := by
  rw [count_declLog fs version f c hmain]
  constructor
  · intro h1
    have hmem : f ∈ declUndeclared fs version (fileAttrs c) :=
      List.count_pos_iff.mp (by omega)
    have hp := List.mem_filter.mp hmem
    refine ⟨hp.1, ?_, ?_, ?_, ?_⟩ <;>
      · have := hp.2
        simp only [Bool.and_eq_true, Bool.not_eq_true', decide_eq_true_eq] at this
        tauto
  · rintro ⟨hmem, h1, h2, h3, h4⟩
    have hmemA : f ∈ declUndeclared fs version (fileAttrs c) := by
      refine List.mem_filter.mpr ⟨hmem, ?_⟩
      simp only [Bool.and_eq_true, Bool.not_eq_true', decide_eq_true_eq]
      tauto
    have hnd : (declUndeclared fs version (fileAttrs c)).Nodup :=
      (List.filter_sublist _).nodup (fs.readdir_nodup hwf [])
    exact List.count_eq_one_of_mem hnd hmemA

/-- Counterexample state for the non-emptiness clause: an **empty** category
manifest `changelog-49-TABLES.xml` exists and is not declared by the root
manifest. -/
def fsEmptyManifest : FS :=
  ⟨[([mainName], .changelog [] true),
    (["changelog-49-TABLES.xml"], .changelog [] true)], []⟩

/-- C6 counterexample: the existing category manifest is empty (declares no
include) and undeclared, and `checkChangelogDeclarations` still reports an
`UndeclaredCategoryManifest` finding for it; the claimed "non-empty"
condition is not part of the code's behaviour. -/
theorem c6_counterexample :
    manifestIncludes fsEmptyManifest "changelog-49-TABLES.xml" = [] ∧
      (checkChangelogDeclarations fsEmptyManifest "49").errors = 1 ∧
      ((checkChangelogDeclarations fsEmptyManifest "49").logs.count
        ⟨"error", "system", declUndeclaredMsg "changelog-49-TABLES.xml"⟩) = 1 := by
  refine ⟨rfl, ?_, ?_⟩ <;> decide

theorem c6_witness :
    ((checkChangelogDeclarations fsEmptyManifest "49").logs.count
      ⟨"error", "system", declUndeclaredMsg "changelog-49-TABLES.xml"⟩) = 1 :=
  (c6_undeclared_manifest_iff fsEmptyManifest "49" "changelog-49-TABLES.xml"
    (.changelog [] true) (by unfold FS.WF; decide) rfl).mpr (by decide)

/-! ## C1: idempotence of `add-to-changelog` -/

/-- C1 (amended): the `add-to-changelog` handler of `src/server/index.js` is
idempotent on every state whose target path is absent or holds a manifest: a
second application returns exactly the same state and the same response as
the first (in particular, when the first application succeeded, the second
reports success without mutating anything); and when the include was not
present initially and the application succeeds, the manifest afterwards holds
exactly one include for the file. -/
theorem c1_add_to_changelog_idempotent (fs : FS) (xmlFile changelogFile : String)
    (hshape : fs.read [changelogFile] = none
      ∨ ∃ incs hasClosing, fs.read [changelogFile] = some (.changelog incs hasClosing)) :
    applyAddToChangelog (applyAddToChangelog fs xmlFile changelogFile).1 xmlFile changelogFile
        = applyAddToChangelog fs xmlFile changelogFile
      ∧ (∀ incs hasClosing, fs.read [changelogFile] = some (.changelog incs hasClosing) →
          incs.contains xmlFile = false →
          (applyAddToChangelog fs xmlFile changelogFile).2 = true →
          (manifestIncludes (applyAddToChangelog fs xmlFile changelogFile).1
            changelogFile).count xmlFile = 1) := by
  constructor
  · by_cases hx : xmlFile = ""
    · simp [applyAddToChangelog, hx]
    · by_cases hc : changelogFile = ""
      · simp [applyAddToChangelog, hx, hc]
      · rcases hshape with hnone | ⟨incs, hasClosing, hsome⟩
        · by_cases hdir : fs.dirExists [changelogFile]
          · simp [applyAddToChangelog, hx, hc, FS.access, FS.fileExists, hnone, hdir]
          · have hacc : fs.access [changelogFile] = false := by
              simp [FS.access, FS.fileExists, hnone]
              simpa using hdir
            simp [applyAddToChangelog, hx, hc, hacc]
        · by_cases hmem : xmlFile ∈ incs
          · simp [applyAddToChangelog, hx, hc, FS.access, FS.fileExists, hsome, hmem]
          · cases hcl : hasClosing with
            | false =>
              rw [hcl] at hsome
              simp [applyAddToChangelog, hx, hc, FS.access, FS.fileExists, hsome, hmem]
            | true =>
              rw [hcl] at hsome
              have hread2 : ((fs.write [changelogFile] (.changelog (incs ++ [xmlFile]) true)).read
                  [changelogFile]) = some (.changelog (incs ++ [xmlFile]) true) :=
                FS.read_write_self fs _ _
              simp [applyAddToChangelog, hx, hc, FS.access, FS.fileExists, hsome, hmem, hread2]
  · intro incs hasClosing hsome hmemB hsucc
    have hmem : xmlFile ∉ incs := by simpa using hmemB
    by_cases hx : xmlFile = ""
    · simp [applyAddToChangelog, hx] at hsucc
    · by_cases hc : changelogFile = ""
      · simp [applyAddToChangelog, hx, hc] at hsucc
      · cases hcl : hasClosing with
        | false =>
          rw [hcl] at hsome
          simp [applyAddToChangelog, hx, hc, FS.access, FS.fileExists, hsome, hmem] at hsucc
        | true =>
          rw [hcl] at hsome
          have hread2 : ((fs.write [changelogFile] (.changelog (incs ++ [xmlFile]) true)).read
              [changelogFile]) = some (.changelog (incs ++ [xmlFile]) true) :=
            FS.read_write_self fs _ _
          have happ : (applyAddToChangelog fs xmlFile changelogFile).1
              = fs.write [changelogFile] (.changelog (incs ++ [xmlFile]) true) := by
            simp [applyAddToChangelog, hx, hc, FS.access, FS.fileExists, hsome, hmem]
          rw [happ]
          unfold manifestIncludes
          rw [hread2]
          show (incs ++ [xmlFile]).count xmlFile = 1
          rw [List.count_append]
          have hz : incs.count xmlFile = 0 := List.count_eq_zero.mpr hmem
          simp [hz]

/-- A category manifest declaring one descriptor, as a target for
`add-to-changelog`. -/
def fsOneInclude : FS :=
  ⟨[(["changelog-49-TABLES.xml"], .changelog ["tables/a.xml"] true)], []⟩

theorem c1_witness :
    applyAddToChangelog
        (applyAddToChangelog fsOneInclude "tables/employee.xml" "changelog-49-TABLES.xml").1
        "tables/employee.xml" "changelog-49-TABLES.xml"
      = applyAddToChangelog fsOneInclude "tables/employee.xml" "changelog-49-TABLES.xml"
    ∧ (manifestIncludes
        (applyAddToChangelog fsOneInclude "tables/employee.xml" "changelog-49-TABLES.xml").1
        "changelog-49-TABLES.xml").count "tables/employee.xml" = 1 := by
  have h := c1_add_to_changelog_idempotent fsOneInclude "tables/employee.xml"
    "changelog-49-TABLES.xml" (Or.inr ⟨["tables/a.xml"], true, rfl⟩)
  exact ⟨h.1, h.2 ["tables/a.xml"] true rfl (by decide) (by decide)⟩

/-- C1 counterexample: the `add-to-changelog` of the part_009 server revision
is **not** idempotent — a second application duplicates the include line, so
two includes for the same file remain in the manifest. -/
theorem c1_counterexample :
    (applyAddToChangelogPart009
        (applyAddToChangelogPart009 fsOneInclude "tables/employee.xml"
          "changelog-49-TABLES.xml").1
        "tables/employee.xml" "changelog-49-TABLES.xml").1
      ≠ (applyAddToChangelogPart009 fsOneInclude "tables/employee.xml"
          "changelog-49-TABLES.xml").1
    ∧ (manifestIncludes
        (applyAddToChangelogPart009
          (applyAddToChangelogPart009 fsOneInclude "tables/employee.xml"
            "changelog-49-TABLES.xml").1
          "tables/employee.xml" "changelog-49-TABLES.xml").1
        "changelog-49-TABLES.xml").count "tables/employee.xml" = 2 := by
  refine ⟨?_, ?_⟩ <;> decide

/-! ## C3: `build-structure` never overwrites an existing payload -/

theorem ne_of_length_ne {α : Type} {l1 l2 : List α} (h : l1.length ≠ l2.length) : l1 ≠ l2 :=
  fun he => h (he ▸ rfl)

/-- Reads three levels below the root are preserved by the per-category phase
of `build-structure`: the only writes three levels deep are the payload
writes, and those are guarded by `existsSync`. -/
theorem buildCategory_read3 (author version : String) (cat : BuildCategory) (fs : FS)
    (p : List String) (hlen : p.length = 3) (v : FileContent) (h : fs.read p = some v) :
    (buildCategory author version fs cat).read p = some v := by
  unfold buildCategory
  by_cases hfiles : cat.files = []
  · simp [hfiles, h]
  · rw [if_pos (by simpa using hfiles)]
    have hfold : ∀ (fl : List BuildFile) (st : FS × List String), st.1.read p = some v →
        ((fl.foldl (fun (st2 : FS × List String) file =>
          let fsx := st2.1
          let fsy :=
            if fsx.access [cat.name, file.name ++ ".xml"] then fsx
            else fsx.write [cat.name, file.name ++ ".xml"] (builtDescriptor author file)
          let fsz :=
            if fsy.access [cat.name, "sql", file.name ++ ".sql"] then fsy
            else fsy.write [cat.name, "sql", file.name ++ ".sql"] (.sql (payloadText file))
          let includePath := cat.name ++ "/" ++ file.name ++ ".xml"
          (fsz, if st2.2.contains includePath then st2.2 else st2.2 ++ [includePath])) st).1).read p
          = some v := by
      intro fl
      induction fl with
      | nil => intro st hst; simpa using hst
      | cons file rest ih =>
        intro st hst
        rw [List.foldl_cons]
        apply ih
        have hxml : (if st.1.access [cat.name, file.name ++ ".xml"] then st.1
            else st.1.write [cat.name, file.name ++ ".xml"] (builtDescriptor author file)).read p
            = some v := by
          by_cases hacc : st.1.access [cat.name, file.name ++ ".xml"]
          · rw [if_pos hacc]; exact hst
          · rw [if_neg hacc]
            rw [FS.read_write_ne _ _ _ _ (ne_of_length_ne (by rw [hlen]; simp))]
            exact hst
        set fsy := if st.1.access [cat.name, file.name ++ ".xml"] then st.1
          else st.1.write [cat.name, file.name ++ ".xml"] (builtDescriptor author file) with hfsy
        by_cases heq : p = [cat.name, "sql", file.name ++ ".sql"]
        · have hacc2 : fsy.access [cat.name, "sql", file.name ++ ".sql"] = true := by
            rw [← heq]
            unfold FS.access FS.fileExists
            rw [hxml]
            simp
          simpa [hacc2] using hxml
        · by_cases hacc2 : fsy.access [cat.name, "sql", file.name ++ ".sql"]
          · simpa [hacc2] using hxml
          · simp only [hacc2, if_false, Bool.false_eq_true]
            rw [FS.read_write_ne _ _ _ _ heq]
            exact hxml
    have hstep := hfold cat.files
      ((fs.mkdir [cat.name]).mkdir [cat.name, "sql"],
        if ((fs.mkdir [cat.name]).mkdir [cat.name, "sql"]).access
            ["changelog-" ++ version ++ "-" ++ strToUpper cat.name ++ ".xml"] then
          manifestIncludes ((fs.mkdir [cat.name]).mkdir [cat.name, "sql"])
            ("changelog-" ++ version ++ "-" ++ strToUpper cat.name ++ ".xml")
        else [])
      (by rw [FS.read_mkdir, FS.read_mkdir]; exact h)
    rw [FS.read_write_ne _ _ _ _ (ne_of_length_ne (by rw [hlen]; simp))]
    exact hstep

/-- Reads three levels below the root are preserved by the root-manifest
phase of `build-structure` (it writes only the root manifest). -/
theorem buildMain_read3 (version : String) (cats : List BuildCategory) (st : FS)
    (p : List String) (hlen : p.length = 3) (v : FileContent) (h : st.read p = some v) :
    (buildMain version cats st).1.read p = some v := by
  unfold buildMain
  have hne : p ≠ [mainName] := ne_of_length_ne (by rw [hlen]; simp)
  cases hread : st.read [mainName] with
  | none =>
    dsimp only
    rw [FS.read_write_ne _ _ _ _ hne]
    exact h
  | some c =>
    cases c with
    | changelog incs b =>
      cases b with
      | true =>
        dsimp only
        rw [FS.read_write_ne _ _ _ _ hne]
        exact h
      | false => exact h
    | sql t => exact h
    | tagFile t => exact h
    | descriptor a b ps => exact h

/-- C3 (amended): the `build-structure` of `src/server/index.js` preserves
the content of every existing file directly below a `<category>/sql/`
directory — in particular an existing payload `<category>/sql/<unit>.sql` is
byte-for-byte unchanged, even when the input supplies new content for that
unit. -/
theorem c3_build_preserves_existing_payload (fs : FS) (config : BuildConfig)
    (category unit : String) (v : FileContent)
    (h : fs.read [category, "sql", unit] = some v) :
    (buildStructure fs config).1.read [category, "sql", unit] = some v := by
  have h1 : (if fs.access [tagName] then fs
      else fs.write [tagName] (.tagFile (config.version ++ ".0.0"))).read
      [category, "sql", unit] = some v := by
    by_cases hacc : fs.access [tagName]
    · rw [if_pos hacc]; exact h
    · rw [if_neg hacc]
      rw [FS.read_write_ne _ _ _ _ (ne_of_length_ne (by simp))]
      exact h
  have h2 : ((config.categories.foldl (buildCategory config.author config.version)
      (if fs.access [tagName] then fs
        else fs.write [tagName] (.tagFile (config.version ++ ".0.0"))))).read
      [category, "sql", unit] = some v := by
    have hall : ∀ (cats : List BuildCategory) (st : FS),
        st.read [category, "sql", unit] = some v →
        (cats.foldl (buildCategory config.author config.version) st).read
          [category, "sql", unit] = some v := by
      intro cats
      induction cats with
      | nil => intro st hst; simpa using hst
      | cons c rest ih =>
        intro st hst
        rw [List.foldl_cons]
        exact ih _ (buildCategory_read3 _ _ _ _ [category, "sql", unit] (by simp) _ hst)
    exact hall _ _ h1
  exact buildMain_read3 config.version config.categories _ [category, "sql", unit] (by simp) v h2

/-- A state already holding a payload with content to protect. -/
def fsPayload : FS :=
  ⟨[(["tables", "sql", "employee.sql"], .sql "-- precious")],
   [["tables"], ["tables", "sql"]]⟩

/-- A build request supplying different content for the same unit. -/
def cfgOverwrite : BuildConfig := ⟨"jdoe", "50", [⟨"tables", [⟨"employee", "OVERWRITTEN"⟩]⟩]⟩

theorem c3_witness :
    (buildStructure fsPayload cfgOverwrite).1.read ["tables", "sql", "employee.sql"]
      = some (.sql "-- precious") :=
  c3_build_preserves_existing_payload fsPayload cfgOverwrite "tables" "employee.sql"
    (.sql "-- precious") rfl

/-- C3 counterexample: the `build-structure` of the part_011 server revision
unconditionally rewrites the payload, replacing the existing content with the
supplied one. -/
theorem c3_counterexample :
    fsPayload.read ["tables", "sql", "employee.sql"] = some (.sql "-- precious") ∧
      (buildStructurePart011 fsPayload cfgOverwrite).1.read ["tables", "sql", "employee.sql"]
        = some (.sql "OVERWRITTEN") := ⟨rfl, by decide⟩

/-! ## C5: rename fixes -/

theorem lookupEntry_filter_ne (l : List (List String × FileContent)) (p q : List String)
    (h : q ≠ p) :
    lookupEntry (l.filter (fun e => !decide (e.1 = p))) q = lookupEntry l q := by
  induction l with
  | nil => rfl
  | cons e es ih =>
    by_cases hep : e.1 = p
    · have hqq : ¬(e.1 = q) := by rw [hep]; exact fun hq => h hq.symm
      simp [List.filter_cons, lookupEntry, hep, hqq, ih, Ne.symm h]
    · by_cases heq : e.1 = q <;> simp [List.filter_cons, lookupEntry, hep, heq, ih, h]

theorem lookupEntry_filter_self (l : List (List String × FileContent)) (p : List String) :
    lookupEntry (l.filter (fun e => !decide (e.1 = p))) p = none := by
  induction l with
  | nil => rfl
  | cons e es ih =>
    by_cases hep : e.1 = p <;> simp [List.filter_cons, lookupEntry, hep, ih]

theorem erase_filter_form (p : List String) :
    (fun (e : List String × FileContent) => decide (e.1 ≠ p))
      = (fun (e : List String × FileContent) => !decide (e.1 = p)) := by
  funext e
  by_cases h : e.1 = p <;> simp [h]

theorem FS.read_erase_ne (fs : FS) (p q : List String) (h : q ≠ p) :
    (fs.erase p).read q = fs.read q := by
  show lookupEntry (fs.files.filter (fun e => decide (e.1 ≠ p))) q = lookupEntry fs.files q
  rw [erase_filter_form]
  exact lookupEntry_filter_ne fs.files p q h

theorem FS.read_erase_self (fs : FS) (p : List String) : (fs.erase p).read p = none := by
  show lookupEntry (fs.files.filter (fun e => decide (e.1 ≠ p))) p = none
  rw [erase_filter_form]
  exact lookupEntry_filter_self fs.files p

theorem listIsPrefixOf_refl (l : List Char) : l.isPrefixOf l = true := by
  induction l with
  | nil => rfl
  | cons c cs ih => simp [List.isPrefixOf, ih]

theorem strHasSubstr_self (s : String) : strHasSubstr s s = true := by
  unfold strHasSubstr
  cases h : s.data with
  | nil => simp [listHasInfix, List.isPrefixOf]
  | cons c cs => simp [listHasInfix, listIsPrefixOf_refl]

theorem strReplaceFirst_self (s rep : String) : strReplaceFirst s s rep = rep := by
  unfold strReplaceFirst
  apply strEq_of_data
  show replaceFirstList s.data rep.data s.data = rep.data
  cases h : s.data with
  | nil => simp [replaceFirstList, List.isPrefixOf]
  | cons c cs =>
    unfold replaceFirstList
    rw [if_pos (listIsPrefixOf_refl _)]
    simp

/-- Behaviour of the first-occurrence patch of the root manifest when exactly
one include value equals the old name and no other include contains it as a
substring. -/
theorem replaceFirstInIncludes_single (old new : String) (l : List String)
    (hcount : l.count old = 1)
    (honly : ∀ x ∈ l, strHasSubstr x old = true → x = old) :
    new ∈ replaceFirstInIncludes old new l
      ∧ (old ≠ new → old ∉ replaceFirstInIncludes old new l) := by
  induction l with
  | nil => simp at hcount
  | cons x xs ih =>
    by_cases hx : strHasSubstr x old = true
    · have hxe : x = old := honly x (List.mem_cons_self _ _) hx
      subst hxe
      have hz : xs.count x = 0 := by
        have := hcount
        rw [List.count_cons_self] at this
        omega
      have hxs : x ∉ xs := List.count_eq_zero.mp hz
      unfold replaceFirstInIncludes
      rw [if_pos (strHasSubstr_self x), strReplaceFirst_self]
      constructor
      · exact List.mem_cons_self _ _
      · intro hne hmem
        rcases List.mem_cons.mp hmem with h | h
        · exact hne h
        · exact hxs h
    · have hxne : x ≠ old := by
        intro he
        exact hx (he ▸ strHasSubstr_self x)
      have hcount2 : xs.count old = 1 := by
        have := hcount
        rw [List.count_cons_of_ne (fun he => hxne he.symm)] at this
        exact this
      have honly2 : ∀ y ∈ xs, strHasSubstr y old = true → y = old :=
        fun y hy => honly y (List.mem_cons_of_mem _ hy)
      obtain ⟨ihm, ihn⟩ := ih hcount2 honly2
      unfold replaceFirstInIncludes
      rw [if_neg (by simp [hx])]
      constructor
      · exact List.mem_cons_of_mem _ ihm
      · intro hne hmem
        rcases List.mem_cons.mp hmem with h | h
        · exact hxne h.symm
        · exact ihn hne h

/-- Shared behaviour of both rename fixes after their filename computation:
rename the manifest, then patch the first occurrence of the old name in the
root manifest. With exactly one root-manifest reference (and no other include
containing the old name), the rename is complete; the spec describes the
resulting state. -/
theorem renamePatch_spec (fs : FS) (old new : String) (incs : List String) (b : Bool)
    (holdm : old ≠ mainName) (hnewm : new ≠ mainName)
    (hfile : fs.fileExists [old] = true)
    (hcount : incs.count old = 1)
    (honly : ∀ x ∈ incs, strHasSubstr x old = true → x = old) :
    (((fs.rename [old] [new]).write [mainName]
        (.changelog (replaceFirstInIncludes old new incs) b)).fileExists [new] = true)
      ∧ (old ≠ new → ((fs.rename [old] [new]).write [mainName]
          (.changelog (replaceFirstInIncludes old new incs) b)).fileExists [old] = false)
      ∧ new ∈ manifestIncludes ((fs.rename [old] [new]).write [mainName]
          (.changelog (replaceFirstInIncludes old new incs) b)) mainName
      ∧ (old ≠ new → old ∉ manifestIncludes ((fs.rename [old] [new]).write [mainName]
          (.changelog (replaceFirstInIncludes old new incs) b)) mainName) := by
  have hlne : ([new] : List String) ≠ [mainName] := by simpa using hnewm
  have hlold : ([old] : List String) ≠ [mainName] := by simpa using holdm
  have hmanifest : manifestIncludes ((fs.rename [old] [new]).write [mainName]
      (.changelog (replaceFirstInIncludes old new incs) b)) mainName
      = replaceFirstInIncludes old new incs := by
    unfold manifestIncludes
    rw [FS.read_write_self]
    rfl
  obtain ⟨hmem, hnot⟩ := replaceFirstInIncludes_single old new incs hcount honly
  refine ⟨?_, ?_, ?_, ?_⟩
  · unfold FS.fileExists
    rw [FS.read_write_ne _ _ _ _ hlne]
    unfold FS.rename
    cases hold : fs.read [old] with
    | none =>
      exfalso
      have h2 : (fs.read [old]).isSome = true := hfile
      rw [hold] at h2
      simp at h2
    | some c =>
      dsimp only
      rw [FS.read_write_self]
      simp
  · intro hne
    have hlon : ([old] : List String) ≠ [new] := by simpa using hne
    unfold FS.fileExists
    rw [FS.read_write_ne _ _ _ _ hlold]
    unfold FS.rename
    cases hold : fs.read [old] with
    | none =>
      exfalso
      have h2 : (fs.read [old]).isSome = true := hfile
      rw [hold] at h2
      simp at h2
    | some c =>
      dsimp only
      rw [FS.read_write_ne _ _ _ _ hlon, FS.read_erase_self]
      simp
  · rw [hmanifest]; exact hmem
  · intro hne; rw [hmanifest]; exact hnot hne

/-- C5 (amended): the rename fixes (`fix-version-number`,
`fix-category-name`) rename the manifest file and patch only the **first**
occurrence of the old filename in the root manifest `changelog-SIO2-all.xml`,
reporting success; when the root manifest holds exactly one reference to the
old name (and no other include contains it), the rename is complete: the file
and the root-manifest reference both carry the new name and no reference to
the old name remains. -/
theorem c5_rename_patches_first_root_reference (fs : FS) (changelogFile : String)
    (tagC c0 : FileContent) (incs : List String) (b : Bool) (ds cat : List Char)
    (htag : fs.read [tagName] = some tagC)
    (hmatch : matchVersionCategory changelogFile.data = some (ds, cat))
    (hfile : fs.read [changelogFile] = some c0)
    (hmain : fs.read [mainName] = some (.changelog incs b))
    (holdm : changelogFile ≠ mainName)
    (hnewmV : replaceChangelogVersion changelogFile (correctVersionOf tagC) ≠ mainName)
    (hnewmC : "changelog-" ++ String.mk ds ++ "-" ++ strToUpper (String.mk cat) ++ ".xml"
      ≠ mainName)
    (hcount : incs.count changelogFile = 1)
    (honly : ∀ x ∈ incs, strHasSubstr x changelogFile = true → x = changelogFile) :
    ((fixVersionNumber fs changelogFile).2 = true
      ∧ (fixVersionNumber fs changelogFile).1.fileExists
          [replaceChangelogVersion changelogFile (correctVersionOf tagC)] = true
      ∧ (changelogFile ≠ replaceChangelogVersion changelogFile (correctVersionOf tagC) →
          (fixVersionNumber fs changelogFile).1.fileExists [changelogFile] = false)
      ∧ replaceChangelogVersion changelogFile (correctVersionOf tagC)
          ∈ manifestIncludes (fixVersionNumber fs changelogFile).1 mainName
      ∧ (changelogFile ≠ replaceChangelogVersion changelogFile (correctVersionOf tagC) →
          changelogFile ∉ manifestIncludes (fixVersionNumber fs changelogFile).1 mainName))
    ∧ ((fixCategoryName fs changelogFile).2 = true
      ∧ (fixCategoryName fs changelogFile).1.fileExists
          ["changelog-" ++ String.mk ds ++ "-" ++ strToUpper (String.mk cat) ++ ".xml"] = true
      ∧ (changelogFile ≠ "changelog-" ++ String.mk ds ++ "-" ++ strToUpper (String.mk cat)
            ++ ".xml" →
          (fixCategoryName fs changelogFile).1.fileExists [changelogFile] = false)
      ∧ "changelog-" ++ String.mk ds ++ "-" ++ strToUpper (String.mk cat) ++ ".xml"
          ∈ manifestIncludes (fixCategoryName fs changelogFile).1 mainName
      ∧ (changelogFile ≠ "changelog-" ++ String.mk ds ++ "-" ++ strToUpper (String.mk cat)
            ++ ".xml" →
          changelogFile ∉ manifestIncludes (fixCategoryName fs changelogFile).1 mainName)) := by
  have hfe : fs.fileExists [changelogFile] = true := by
    show (fs.read [changelogFile]).isSome = true
    rw [hfile]; rfl
  constructor
  · set newFile := replaceChangelogVersion changelogFile (correctVersionOf tagC) with hnf
    have hm1 : (fs.rename [changelogFile] [newFile]).read [mainName]
        = some (.changelog incs b) := by
      unfold FS.rename
      rw [hfile]
      dsimp only
      rw [FS.read_write_ne _ _ _ _ (by simpa using hnewmV.symm),
        FS.read_erase_ne _ _ _ (by simpa using holdm.symm)]
      exact hmain
    have hv : fixVersionNumber fs changelogFile
        = ((fs.rename [changelogFile] [newFile]).write [mainName]
            (.changelog (replaceFirstInIncludes changelogFile newFile incs) b), true) := by
      simp only [fixVersionNumber, htag]
      rw [if_neg (by simp [hfe])]
      simp only [hm1]
    rw [hv]
    obtain ⟨h1, h2, h3, h4⟩ := renamePatch_spec fs changelogFile newFile incs b holdm
      hnewmV hfe hcount honly
    exact ⟨rfl, h1, h2, h3, h4⟩
  · set newFile := "changelog-" ++ String.mk ds ++ "-" ++ strToUpper (String.mk cat) ++ ".xml"
      with hnf
    have hm1 : (fs.rename [changelogFile] [newFile]).read [mainName]
        = some (.changelog incs b) := by
      unfold FS.rename
      rw [hfile]
      dsimp only
      rw [FS.read_write_ne _ _ _ _ (by simpa using hnewmC.symm),
        FS.read_erase_ne _ _ _ (by simpa using holdm.symm)]
      exact hmain
    have hv : fixCategoryName fs changelogFile
        = ((fs.rename [changelogFile] [newFile]).write [mainName]
            (.changelog (replaceFirstInIncludes changelogFile newFile incs) b), true) := by
      simp only [fixCategoryName, hmatch]
      rw [if_neg (by simp [hfe])]
      simp only [hm1]
    rw [hv]
    obtain ⟨h1, h2, h3, h4⟩ := renamePatch_spec fs changelogFile newFile incs b holdm
      hnewmC hfe hcount honly
    exact ⟨rfl, h1, h2, h3, h4⟩

/-- A state with a stale-version manifest referenced once by the root
manifest, and the current version `49` in the tag file. -/
def fsStaleOnce : FS :=
  ⟨[([tagName], .tagFile "49.0.0"),
    (["changelog-48-TABLES.xml"], .changelog [] true),
    ([mainName], .changelog ["tag-database.xml", "changelog-48-TABLES.xml"] true)], []⟩

theorem c5_witness :
    (fixVersionNumber fsStaleOnce "changelog-48-TABLES.xml").2 = true
      ∧ "changelog-49-TABLES.xml"
          ∈ manifestIncludes (fixVersionNumber fsStaleOnce "changelog-48-TABLES.xml").1 mainName
      ∧ "changelog-48-TABLES.xml"
          ∉ manifestIncludes (fixVersionNumber fsStaleOnce "changelog-48-TABLES.xml").1 mainName := by
  have h := c5_rename_patches_first_root_reference fsStaleOnce "changelog-48-TABLES.xml"
    (.tagFile "49.0.0") (.changelog [] true)
    ["tag-database.xml", "changelog-48-TABLES.xml"] true
    "48".data "TABLES".data rfl (by decide) rfl rfl (by decide) (by decide) (by decide)
    (by decide) (by decide)
  have hrepl : replaceChangelogVersion "changelog-48-TABLES.xml"
      (correctVersionOf (.tagFile "49.0.0")) = "changelog-49-TABLES.xml" := by decide
  refine ⟨h.1.1, ?_, ?_⟩
  · have := h.1.2.2.2.1
    rwa [hrepl] at this
  · exact h.1.2.2.2.2 (by decide)

/-- A state in which the root manifest references the stale manifest twice. -/
def fsStaleTwice : FS :=
  ⟨[([tagName], .tagFile "49.0.0"),
    (["changelog-48-TABLES.xml"], .changelog [] true),
    ([mainName], .changelog
      ["tag-database.xml", "changelog-48-TABLES.xml", "changelog-48-TABLES.xml"] true)], []⟩

/-- C5 counterexample: with two root-manifest references to the old filename,
`fix-version-number` renames the file, patches only the first reference, and
still reports success — the second reference is left dangling (it names a
file that no longer exists), not reported as a failure. -/
theorem c5_counterexample :
    (fixVersionNumber fsStaleTwice "changelog-48-TABLES.xml").2 = true
      ∧ "changelog-48-TABLES.xml"
          ∈ manifestIncludes (fixVersionNumber fsStaleTwice "changelog-48-TABLES.xml").1 mainName
      ∧ (fixVersionNumber fsStaleTwice "changelog-48-TABLES.xml").1.fileExists
          ["changelog-48-TABLES.xml"] = false := by
  refine ⟨?_, ?_, ?_⟩ <;> decide

/-! ## C4: behaviour of the full check run without a tag file -/

/-- `checkOrphaned` is silent when the category and its `sql` directory are
both inaccessible (both loops are gated on directory access). -/
theorem checkOrphaned_silent (fs : FS) (c version : String)
    (h1 : fs.access [c] = false) (h2 : fs.access [c, "sql"] = false) :
    checkOrphaned fs c version = ⟨0, []⟩ := by
  rw [checkOrphaned_eq]
  unfold orphanA orphanB
  rw [h1, h2]
  simp

/-- `checkReferences` is silent when the category directory is inaccessible
and the category manifest is absent. -/
theorem checkReferences_silent (fs : FS) (c version : String)
    (h1 : fs.access [c] = false) (hm : fs.read [masterChangelogName version c] = none) :
    checkReferences fs c version = ⟨0, []⟩ := by
  rw [checkReferences_eq]
  unfold danglingA danglingB manifestIncludes
  rw [h1, hm]
  simp

/-- C4 (amended): when the tag file is absent (so the version cannot be
resolved), `StructureChecker.check` reports `Missing tag-database.xml` and
**still performs** the category-level checks, passing the unresolved version
as the string `null`; only when those checks find nothing — here: no category
directory exists and no `changelog-null-<CATEGORY>.xml` manifest exists —
does the run report exactly the one `MissingTagFile` error (plus the error
summary line). -/
theorem c4_missing_tag_continues_with_null (wd : String) (fs : FS)
    (hver : getVersion fs = none)
    (hcats : ∀ c ∈ checkerCategories, fs.access [c] = false ∧ fs.access [c, "sql"] = false
      ∧ fs.read [masterChangelogName "null" c] = none) :
    (structureCheck wd fs).errors = 1
      ∧ (structureCheck wd fs).logs.filter (fun l => l.type == "error")
          = [missingTagLog, ⟨"error", "summary", "Found 1 error(s)"⟩] := by
  have hcat : ∀ c ∈ checkerCategories,
      checkOrphaned fs c (versionParam none) = ⟨0, []⟩
        ∧ checkReferences fs c (versionParam none) = ⟨0, []⟩ := by
    intro c hc
    obtain ⟨h1, h2, h3⟩ := hcats c hc
    exact ⟨checkOrphaned_silent fs c _ h1 h2, checkReferences_silent fs c _ h1 h3⟩
  have hfold : ∀ (cats : List String),
      (∀ c ∈ cats, checkOrphaned fs c (versionParam none) = ⟨0, []⟩
        ∧ checkReferences fs c (versionParam none) = ⟨0, []⟩) →
      ∀ init : Nat × List LogEntry,
      (cats.foldl (fun acc category =>
          let o := checkOrphaned fs category (versionParam none)
          let r := checkReferences fs category (versionParam none)
          (acc.1 + o.errors + r.errors,
           acc.2 ++ [⟨"info", "system", "\nChecking " ++ category ++ "..."⟩] ++ o.logs ++ r.logs))
        init)
      = (init.1, init.2 ++ cats.map
          (fun c => ⟨"info", "system", "\nChecking " ++ c ++ "..."⟩)) := by
    intro cats
    induction cats with
    | nil => intro _ init; simp
    | cons c rest ih =>
      intro hall init
      rw [List.foldl_cons]
      obtain ⟨ho, hr⟩ := hall c (List.mem_cons_self _ _)
      rw [ih (fun x hx => hall x (List.mem_cons_of_mem _ hx))]
      rw [ho, hr]
      simp
  unfold structureCheck
  rw [hver]
  dsimp only
  rw [hfold checkerCategories hcat]
  simp only [checkerCategories, List.map_cons, List.map_nil]
  refine ⟨by trivial, ?_⟩
  simp [missingTagLog, List.filter_append]
  decide

theorem c4_witness :
    (structureCheck "wd" FS.empty).errors = 1
      ∧ (structureCheck "wd" FS.empty).logs.filter (fun l => l.type == "error")
          = [missingTagLog, ⟨"error", "summary", "Found 1 error(s)"⟩] :=
  c4_missing_tag_continues_with_null "wd" FS.empty rfl (by decide)

/-- A working directory without a tag file but with one descriptor present. -/
def fsNoTag : FS := ⟨[(["tables", "foo.xml"], .descriptor "foo" "a" [])], [["tables"]]⟩

/-- C4 counterexample: with the tag file absent but a descriptor on disk, the
run does **not** stop at `MissingTagFile`: the category-level checks run with
the `null` version and report the descriptor as undeclared, for two error
findings in total. -/
theorem c4_counterexample :
    getVersion fsNoTag = none ∧ (structureCheck "wd" fsNoTag).errors = 2 := by
  refine ⟨rfl, ?_⟩
  decide

/-! ## C7: duplicate entries are never detected by any check -/

/-- A consistent working directory whose category manifest declares the same
change unit **twice** (two structurally identical entries). -/
def fsDuplicate : FS :=
  ⟨[([tagName], .tagFile "49.0.0"),
    (["changelog-49-TABLES.xml"], .changelog ["tables/a.xml", "tables/a.xml"] true),
    (["tables", "a.xml"], .descriptor "a" "jdoe" ["sql/a.sql"]),
    (["tables", "sql", "a.sql"], .sql "select 1;"),
    ([mainName], .changelog ["tag-database.xml", "changelog-49-TABLES.xml"] true)],
   [["tables"], ["tables", "sql"]]⟩

/-- C7: the category manifest of `fsDuplicate` contains two structurally
identical change-unit entries, yet the full structure-check run and both
root-manifest checks all report **zero** errors — no check in the code base
produces a `DuplicateEntry` finding. -/
theorem c7_duplicate_entries_not_detected :
    (manifestIncludes fsDuplicate "changelog-49-TABLES.xml").count "tables/a.xml" = 2
      ∧ (structureCheck "wd" fsDuplicate).errors = 0
      ∧ (checkMainChangelog fsDuplicate "49").errors = 0
      ∧ (checkChangelogDeclarations fsDuplicate "49").errors = 0 := by
  refine ⟨?_, ?_, ?_, ?_⟩ <;> decide

theorem c8_witness :
    ((checkOrphaned fsNoTag "tables" "49").logs.count
      ⟨"error", "tables", orphanMsg "tables" "foo.xml" (masterChangelogName "49" "tables")⟩) = 1 :=
  c8_undeclared_descriptor_exactly_once fsNoTag "tables" "49" "foo.xml"
    (by unfold FS.WF; decide) (by decide) (by decide) (by decide) (by decide)
    (by decide) (by decide)

/-- A state whose category manifest declares the descriptor under its bare
filename only. -/
def fsShortDeclared : FS :=
  ⟨[(["changelog-49-TABLES.xml"], .changelog ["foo.xml"] true),
    (["tables", "foo.xml"], .descriptor "foo" "a" [])],
   [["tables"]]⟩

theorem c10_witness :
    ((checkOrphaned fsShortDeclared "tables" "49").logs.count
      ⟨"error", "tables", orphanMsg "tables" "foo.xml" (masterChangelogName "49" "tables")⟩) = 0 :=
  c10_short_path_counts_as_declared fsShortDeclared "tables" "49" "foo.xml"
    (Or.inr (by decide))

/-! ## Toolkit for the build/check round trip -/

theorem strAppend_assoc (a b c : String) : (a ++ b) ++ c = a ++ (b ++ c) := by
  apply strEq_of_data
  simp [strData_append, List.append_assoc]

theorem listIsPrefixOf_append (l t : List Char) : l.isPrefixOf (l ++ t) = true := by
  induction l with
  | nil => simp [List.isPrefixOf]
  | cons c cs ih => simp [List.isPrefixOf, ih]

theorem strStartsWith_append_left (a b : String) : strStartsWith (a ++ b) a = true := by
  unfold strStartsWith
  rw [strData_append]
  exact listIsPrefixOf_append _ _

theorem strDrop_append_left (a b : String) : strDrop (a ++ b) a.data.length = b := by
  unfold strDrop
  rw [strData_append, List.drop_left]

theorem strEndsWith_append_right (a b : String) : strEndsWith (a ++ b) b = true := by
  unfold strEndsWith
  rw [strData_append]
  rw [List.isSuffixOf_iff_suffix]
  exact List.suffix_append _ _

theorem takeWhile_all_append (p : Char → Bool) (l1 l2 : List Char)
    (h1 : ∀ c ∈ l1, p c = true) (h2 : ∀ d, l2.head? = some d → p d = false) :
    (l1 ++ l2).takeWhile p = l1 := by
  induction l1 with
  | nil =>
    cases l2 with
    | nil => rfl
    | cons d ds => simp [List.takeWhile_cons, h2 d rfl]
  | cons c cs ih =>
    rw [List.cons_append]
    simp [List.takeWhile_cons, h1 c (List.mem_cons_self _ _),
      ih (fun x hx => h1 x (List.mem_cons_of_mem _ hx))]

theorem toNat_ofNatAux (n : Nat) (h : n.isValidChar) : (Char.ofNatAux n h).toNat = n := by
  simp [Char.ofNatAux, Char.toNat, UInt32.toNat, BitVec.toNat_ofNatLt]

/-- `toUpperCase` never produces the (lowercase) character `c`, so
`"changelog-"` cannot occur inside an uppercased category token. -/
theorem toUpper_ne_c (ch : Char) : Char.toUpper ch ≠ 'c' := by
  unfold Char.toUpper
  by_cases h : ch.toNat ≥ 97 ∧ ch.toNat ≤ 122
  · rw [if_pos h]
    intro he
    have hv : (ch.toNat - 32).isValidChar := by
      unfold Nat.isValidChar
      left
      omega
    have h1 : Char.ofNat (ch.toNat - 32) = Char.ofNatAux (ch.toNat - 32) hv := by
      unfold Char.ofNat
      rw [dif_pos hv]
    rw [h1] at he
    have h2 : (Char.ofNatAux (ch.toNat - 32) hv).toNat = ch.toNat - 32 := toNat_ofNatAux _ hv
    rw [he] at h2
    have h3 : ('c' : Char).toNat = 99 := rfl
    omega
  · rw [if_neg h]
    intro he
    have : ch.toNat = 99 := by rw [he]; rfl
    omega

theorem validName_chars {s : String} (h : validName s = true) :
    ∀ c ∈ s.data, isNameChar c = true := by
  unfold validName at h
  simp only [Bool.and_eq_true, List.all_eq_true] at h
  exact h.2

theorem validName_ne_empty {s : String} (h : validName s = true) : s.data ≠ [] := by
  unfold validName at h
  simp only [Bool.and_eq_true] at h
  intro he
  have h1 : s ≠ "" := by simpa using h.1
  apply h1
  apply strEq_of_data
  rw [he]

theorem validName_no_dot {s : String} (h : validName s = true) : '.' ∉ s.data := by
  intro hm
  have := validName_chars h '.' hm
  simp [isNameChar] at this

theorem validName_no_slash {s : String} (h : validName s = true) : '/' ∉ s.data := by
  intro hm
  have := validName_chars h '/' hm
  simp [isNameChar] at this

theorem numericVersion_chars {s : String} (h : numericVersion s = true) :
    ∀ c ∈ s.data, c.isDigit = true := by
  unfold numericVersion at h
  simp only [Bool.and_eq_true, List.all_eq_true] at h
  exact h.2

theorem numericVersion_ne_empty {s : String} (h : numericVersion s = true) : s.data ≠ [] := by
  unfold numericVersion at h
  simp only [Bool.and_eq_true] at h
  intro he
  have h1 : s ≠ "" := by simpa using h.1
  apply h1
  apply strEq_of_data
  rw [he]

theorem splitSlashList_no_slash (l : List Char) (h : '/' ∉ l) : splitSlashList l = [l] := by
  induction l with
  | nil => rfl
  | cons c cs ih =>
    simp only [List.mem_cons] at h
    push_neg at h
    unfold splitSlashList
    rw [ih h.2]
    simp [Ne.symm h.1]

theorem splitSlash_pair (a b : String) (ha : '/' ∉ a.data) (hb : '/' ∉ b.data) :
    splitSlash (a ++ "/" ++ b) = [a, b] := by
  unfold splitSlash
  have hd : (a ++ "/" ++ b).data = a.data ++ '/' :: b.data := by
    rw [strData_append, strData_append, List.append_assoc]
    rfl
  rw [hd]
  have : ∀ (l : List Char), '/' ∉ l → splitSlashList (l ++ '/' :: b.data) = [l, b.data] := by
    intro l hl
    induction l with
    | nil =>
      show splitSlashList ('/' :: b.data) = [[], b.data]
      unfold splitSlashList
      rw [splitSlashList_no_slash b.data hb]
      simp
    | cons c cs ih =>
      simp only [List.mem_cons] at hl
      push_neg at hl
      rw [List.cons_append]
      unfold splitSlashList
      rw [ih hl.2]
      simp [Ne.symm hl.1]
  rw [this a.data ha]
  simp

/-! ## Disequalities between the filenames the build produces -/

theorem strNe_of_data_head {a b : String} (h : a.data.head? ≠ b.data.head?) : a ≠ b :=
  fun he => h (he ▸ rfl)

theorem strNe_of_dot {a b : String} (ha : '.' ∈ a.data) (hb : '.' ∉ b.data) : a ≠ b := by
  intro he
  rw [he] at ha
  exact hb ha

theorem masterChangelogName_data (v n : String) :
    (masterChangelogName v n).data
      = "changelog-".data ++ (v.data ++ ("-".data ++ ((strToUpper n).data ++ ".xml".data))) := by
  simp [masterChangelogName, strData_append, List.append_assoc]

theorem mainName_data : mainName.data = "changelog-".data ++ "SIO2-all.xml".data := rfl

theorem dot_mem_masterChangelogName (v n : String) : '.' ∈ (masterChangelogName v n).data := by
  rw [masterChangelogName_data]
  simp

theorem masterChangelogName_ne_tag (v n : String) : masterChangelogName v n ≠ tagName := by
  apply strNe_of_data_head
  rw [masterChangelogName_data]
  intro h
  have h1 : ("changelog-".data ++ (v.data ++ ("-".data ++ ((strToUpper n).data
      ++ ".xml".data)))).head? = some 'c' := rfl
  have h2 : (tagName.data).head? = some 't' := rfl
  rw [h1, h2] at h
  simp at h

theorem masterChangelogName_ne_main {v : String} (hv : numericVersion v = true) (n : String) :
    masterChangelogName v n ≠ mainName := by
  intro he
  have hd := congrArg String.data he
  rw [masterChangelogName_data, mainName_data] at hd
  have h1 := List.append_cancel_left hd
  obtain ⟨d, ds, hds⟩ : ∃ d ds, v.data = d :: ds := by
    cases hv2 : v.data with
    | nil => exact absurd hv2 (numericVersion_ne_empty hv)
    | cons d ds => exact ⟨d, ds, rfl⟩
  rw [hds] at h1
  have h2 : d = 'S' := by
    have := congrArg List.head? h1
    simpa using this
  have h3 : d.isDigit = true := numericVersion_chars hv d (by rw [hds]; exact List.mem_cons_self _ _)
  rw [h2] at h3
  simp [Char.isDigit] at h3

theorem masterChangelogName_inj {v a b : String}
    (h : masterChangelogName v a = masterChangelogName v b) : strToUpper a = strToUpper b := by
  have hd := congrArg String.data h
  rw [masterChangelogName_data, masterChangelogName_data] at hd
  have h1 := List.append_cancel_left hd
  have h2 := List.append_cancel_left h1
  have h3 := List.append_cancel_left h2
  exact strEq_of_data (List.append_cancel_right h3)

theorem validName_ne_masterChangelogName {n : String} (h : validName n = true)
    (v m : String) : n ≠ masterChangelogName v m := by
  intro he
  exact validName_no_dot h (he ▸ dot_mem_masterChangelogName v m)

theorem validName_ne_tag {n : String} (h : validName n = true) : n ≠ tagName :=
  fun he => validName_no_dot h (he ▸ (by decide : '.' ∈ tagName.data))

theorem validName_ne_main {n : String} (h : validName n = true) : n ≠ mainName :=
  fun he => validName_no_dot h (he ▸ (by decide : '.' ∈ mainName.data))

theorem dot_mem_append_xml (u : String) : '.' ∈ (u ++ ".xml").data := by
  rw [strData_append]
  simp

theorem sql_ne_append_xml (u : String) : ("sql" : String) ≠ u ++ ".xml" :=
  (@strNe_of_dot (u ++ ".xml") "sql" (dot_mem_append_xml u) (by decide)).symm

theorem append_xml_inj {a b : String} (h : a ++ ".xml" = b ++ ".xml") : a = b :=
  strAppend_cancel_right h

theorem append_sql_inj {a b : String} (h : a ++ ".sql" = b ++ ".sql") : a = b :=
  strAppend_cancel_right h

/-! ## The state `build-structure` produces from an empty directory -/

/-- Files the per-category phase creates for one category (descriptor and
payload per unit, in creation order, then the category manifest). -/
def categoryEntries (author version : String) (cat : BuildCategory) :
    List (List String × FileContent) :=
  cat.files.flatMap (fun f =>
    [([cat.name, f.name ++ ".xml"], builtDescriptor author f),
     ([cat.name, "sql", f.name ++ ".sql"], .sql (payloadText f))])
  ++ [([masterChangelogName version cat.name],
       .changelog (cat.files.map (fun f => cat.name ++ "/" ++ f.name ++ ".xml")) true)]

/-- All files `build-structure` leaves in an initially empty directory. -/
def builtFiles (cfg : BuildConfig) : List (List String × FileContent) :=
  ([tagName], .tagFile (cfg.version ++ ".0.0"))
    :: cfg.categories.flatMap (categoryEntries cfg.author cfg.version)
  ++ [([mainName], .changelog ("tag-database.xml"
       :: cfg.categories.map (fun cat => masterChangelogName cfg.version cat.name)) true)]

/-- All directories `build-structure` creates in an initially empty
directory. -/
def builtDirs (cfg : BuildConfig) : List (List String) :=
  cfg.categories.flatMap (fun cat => [[cat.name], [cat.name, "sql"]])

/-- The built state as a filesystem. -/
def builtFS (cfg : BuildConfig) : FS := ⟨builtFiles cfg, builtDirs cfg⟩

theorem categoryEntries_keys (author version : String) (cat : BuildCategory) :
    (categoryEntries author version cat).map Prod.fst
      = cat.files.flatMap (fun f =>
          [[cat.name, f.name ++ ".xml"], [cat.name, "sql", f.name ++ ".sql"]])
        ++ [[masterChangelogName version cat.name]] := by
  unfold categoryEntries
  rw [List.map_append, List.map_flatMap]
  rfl

theorem pairwise_name_ne {files : List BuildFile}
    (h : (files.map BuildFile.name).Nodup) :
    files.Pairwise (fun f g => f.name ≠ g.name) := by
  rw [List.Nodup, List.pairwise_map] at h
  exact h

theorem categoryEntries_keys_nodup (author version : String) (cat : BuildCategory)
    (hnd : (cat.files.map BuildFile.name).Nodup) :
    ((categoryEntries author version cat).map Prod.fst).Nodup := by
  rw [categoryEntries_keys]
  rw [List.nodup_append]
  refine ⟨?_, List.nodup_singleton _, ?_⟩
  · rw [List.nodup_flatMap]
    constructor
    · intro f _
      simp only [List.nodup_cons, List.mem_singleton, List.not_mem_nil, not_false_iff,
        List.nodup_singleton, and_true]
      refine ⟨?_, trivial, List.nodup_nil⟩
      intro he
      have := congrArg List.length he
      simp at this
    · have hp := pairwise_name_ne hnd
      apply List.Pairwise.imp _ hp
      intro f g hfg
      intro k hk1 hk2
      simp only [List.mem_cons, List.not_mem_nil, or_false] at hk1 hk2
      rcases hk1 with h1 | h1 <;> rcases hk2 with h2 | h2 <;> rw [h1] at h2
      · simp only [List.cons.injEq, and_true] at h2
        exact hfg (append_xml_inj h2.2)
      · have := congrArg List.length h2
        simp at this
      · have := congrArg List.length h2
        simp at this
      · simp only [List.cons.injEq, and_true] at h2
        exact hfg (append_sql_inj h2.2.2)
  · intro k hk
    simp only [List.mem_flatMap, List.mem_cons, List.not_mem_nil, or_false] at hk
    obtain ⟨f, _, hf⟩ := hk
    intro hm
    simp only [List.mem_singleton] at hm
    rcases hf with h1 | h1 <;> rw [hm] at h1
    · have := congrArg List.length h1
      simp at this
    · have := congrArg List.length h1
      simp at this

theorem builtFiles_keys_nodup (cfg : BuildConfig) (h : ValidConfig cfg) :
    ((builtFiles cfg).map Prod.fst).Nodup := by
  obtain ⟨hauthor, hver, hne, hupnd, hcats⟩ := h
  unfold builtFiles
  rw [List.map_append, List.map_cons, List.map_flatMap]
  rw [List.nodup_append]
  refine ⟨?_, by simp, ?_⟩
  · rw [List.nodup_cons]
    constructor
    · -- the tag-file key occurs in no category
      intro hm
      rw [List.mem_flatMap] at hm
      obtain ⟨cat, hcat, hk⟩ := hm
      rw [categoryEntries_keys] at hk
      rcases List.mem_append.mp hk with hk | hk
      · rw [List.mem_flatMap] at hk
        obtain ⟨f, _, hf⟩ := hk
        rcases List.mem_cons.mp hf with h1 | h1
        · have := congrArg List.length h1
          simp at this
        · simp only [List.mem_singleton] at h1
          have := congrArg List.length h1
          simp at this
      · simp only [List.mem_singleton] at hk
        have : tagName = masterChangelogName cfg.version cat.name := by
          injection hk
        exact masterChangelogName_ne_tag cfg.version cat.name this.symm
    · -- the per-category keys are pairwise distinct
      rw [List.nodup_flatMap]
      constructor
      · intro cat hcat
        exact categoryEntries_keys_nodup cfg.author cfg.version cat ((hcats cat hcat).2.2.1)
      · have hup : cfg.categories.Pairwise
            (fun c1 c2 => strToUpper c1.name ≠ strToUpper c2.name) := by
          rw [List.Nodup, List.pairwise_map] at hupnd
          exact hupnd
        apply List.Pairwise.imp _ hup
        intro c1 c2 hne12
        have hname : c1.name ≠ c2.name := fun he => hne12 (he ▸ rfl)
        intro k hk1 hk2
        simp only [] at hk1 hk2
        rw [categoryEntries_keys] at hk1 hk2
        rcases List.mem_append.mp hk1 with ha | ha <;> rcases List.mem_append.mp hk2 with hb | hb
        · rw [List.mem_flatMap] at ha hb
          obtain ⟨f, _, hf⟩ := ha
          obtain ⟨g, _, hg⟩ := hb
          rcases List.mem_cons.mp hf with h1 | h1 <;> rcases List.mem_cons.mp hg with h2 | h2
          · rw [h1] at h2
            simp only [List.cons.injEq] at h2
            exact hname h2.1
          · simp only [List.mem_singleton] at h2
            rw [h1] at h2
            have := congrArg List.length h2
            simp at this
          · simp only [List.mem_singleton] at h1
            rw [h1] at h2
            have := congrArg List.length h2
            simp at this
          · simp only [List.mem_singleton] at h1 h2
            rw [h1] at h2
            simp only [List.cons.injEq] at h2
            exact hname h2.1
        · rw [List.mem_flatMap] at ha
          obtain ⟨f, _, hf⟩ := ha
          simp only [List.mem_singleton] at hb
          rcases List.mem_cons.mp hf with h1 | h1
          · rw [hb] at h1
            have := congrArg List.length h1
            simp at this
          · simp only [List.mem_singleton] at h1
            rw [hb] at h1
            have := congrArg List.length h1
            simp at this
        · rw [List.mem_flatMap] at hb
          obtain ⟨g, _, hg⟩ := hb
          simp only [List.mem_singleton] at ha
          rcases List.mem_cons.mp hg with h1 | h1
          · rw [ha] at h1
            have := congrArg List.length h1
            simp at this
          · simp only [List.mem_singleton] at h1
            rw [ha] at h1
            have := congrArg List.length h1
            simp at this
        · simp only [List.mem_singleton] at ha hb
          rw [ha] at hb
          have : masterChangelogName cfg.version c1.name
              = masterChangelogName cfg.version c2.name := by injection hb
          exact hne12 (masterChangelogName_inj this)
  · -- the root-manifest key differs from the tag key and every category key
    intro k hk
    simp only [List.map_cons, List.map_nil, List.mem_singleton]
    rcases List.mem_cons.mp hk with hk | hk
    · rw [hk]
      intro hm
      have : tagName = mainName := by injection hm
      exact absurd this (by decide)
    · rw [List.mem_flatMap] at hk
      obtain ⟨cat, hcat, hkk⟩ := hk
      rw [categoryEntries_keys] at hkk
      intro hm
      rw [hm] at hkk
      rcases List.mem_append.mp hkk with ha | ha
      · rw [List.mem_flatMap] at ha
        obtain ⟨f, _, hf⟩ := ha
        rcases List.mem_cons.mp hf with h1 | h1
        · have := congrArg List.length h1
          simp at this
        · simp only [List.mem_singleton] at h1
          have := congrArg List.length h1
          simp at this
      · simp only [List.mem_singleton] at ha
        have : mainName = masterChangelogName cfg.version cat.name := by injection ha
        exact masterChangelogName_ne_main hver cat.name this.symm

/-! ## Freshness facts about category keys -/

theorem mem_categoryEntries_keys {author version : String} {cat : BuildCategory}
    {q : List String} (hq : q ∈ (categoryEntries author version cat).map Prod.fst) :
    (∃ f ∈ cat.files, q = [cat.name, f.name ++ ".xml"]
      ∨ q = [cat.name, "sql", f.name ++ ".sql"])
    ∨ q = [masterChangelogName version cat.name] := by
  rw [categoryEntries_keys] at hq
  rcases List.mem_append.mp hq with h | h
  · rw [List.mem_flatMap] at h
    obtain ⟨f, hf, hk⟩ := h
    rcases List.mem_cons.mp hk with h1 | h1
    · exact Or.inl ⟨f, hf, Or.inl h1⟩
    · simp only [List.mem_singleton] at h1
      exact Or.inl ⟨f, hf, Or.inr h1⟩
  · simp only [List.mem_singleton] at h
    exact Or.inr h

theorem categoryEntries_keys_ne_tag {author version : String} {cat : BuildCategory}
    {q : List String} (hq : q ∈ (categoryEntries author version cat).map Prod.fst) :
    q ≠ [tagName] := by
  rcases mem_categoryEntries_keys hq with ⟨f, _, h1 | h1⟩ | h1 <;> rw [h1] <;> intro he
  · have := congrArg List.length he
    simp at this
  · have := congrArg List.length he
    simp at this
  · have : masterChangelogName version cat.name = tagName := by injection he
    exact masterChangelogName_ne_tag version cat.name this

theorem categoryEntries_keys_ne_main {author version : String} {cat : BuildCategory}
    (hver : numericVersion version = true)
    {q : List String} (hq : q ∈ (categoryEntries author version cat).map Prod.fst) :
    q ≠ [mainName] := by
  rcases mem_categoryEntries_keys hq with ⟨f, _, h1 | h1⟩ | h1 <;> rw [h1] <;> intro he
  · have := congrArg List.length he
    simp at this
  · have := congrArg List.length he
    simp at this
  · have : masterChangelogName version cat.name = mainName := by injection he
    exact masterChangelogName_ne_main hver cat.name this

theorem categoryEntries_keys_ne_dirs {author version : String} {cat : BuildCategory}
    {m : String} (hvm : validName m = true)
    {q : List String} (hq : q ∈ (categoryEntries author version cat).map Prod.fst) :
    q ≠ [m] ∧ q ≠ [m, "sql"] := by
  rcases mem_categoryEntries_keys hq with ⟨f, _, h1 | h1⟩ | h1 <;> rw [h1] <;> constructor <;>
      intro he
  · have := congrArg List.length he
    simp at this
  · simp only [List.cons.injEq, and_true] at he
    exact sql_ne_append_xml f.name he.2.symm
  · have := congrArg List.length he
    simp at this
  · have := congrArg List.length he
    simp at this
  · have : masterChangelogName version cat.name = m := by injection he
    exact validName_ne_masterChangelogName hvm version cat.name this.symm
  · have := congrArg List.length he
    simp at this

theorem categoryEntries_keys_disjoint {author version : String} {c1 c2 : BuildCategory}
    (hup : strToUpper c1.name ≠ strToUpper c2.name)
    {q : List String} (hq : q ∈ (categoryEntries author version c2).map Prod.fst) :
    q ∉ (categoryEntries author version c1).map Prod.fst := by
  have hname : c2.name ≠ c1.name := fun he => hup (he ▸ rfl)
  intro hq1
  rcases mem_categoryEntries_keys hq with ⟨f, _, h2 | h2⟩ | h2 <;>
    rcases mem_categoryEntries_keys hq1 with ⟨g, _, h1 | h1⟩ | h1 <;> rw [h2] at h1
  · simp only [List.cons.injEq] at h1
    exact hname h1.1
  · have := congrArg List.length h1
    simp at this
  · have := congrArg List.length h1
    simp at this
  · have := congrArg List.length h1
    simp at this
  · simp only [List.cons.injEq] at h1
    exact hname h1.1
  · have := congrArg List.length h1
    simp at this
  · have := congrArg List.length h1
    simp at this
  · have := congrArg List.length h1
    simp at this
  · have : masterChangelogName version c2.name = masterChangelogName version c1.name := by
      injection h1
    exact hup (masterChangelogName_inj this).symm

theorem FS.access_false (fs : FS) (p : List String)
    (hf : p ∉ fs.files.map Prod.fst) (hd : p ∉ fs.dirs) : fs.access p = false := by
  unfold FS.access FS.fileExists FS.dirExists FS.read
  rw [lookupEntry_of_not_mem fs.files p hf]
  simpa using hd

theorem FS.mkdir_fresh (fs : FS) (p : List String) (h : p ∉ fs.dirs) :
    fs.mkdir p = ⟨fs.files, fs.dirs ++ [p]⟩ := by
  unfold FS.mkdir
  rw [if_neg (by simpa using h)]

theorem FS.write_fresh (fs : FS) (p : List String) (c : FileContent)
    (h : p ∉ fs.files.map Prod.fst) : fs.write p c = ⟨fs.files ++ [(p, c)], fs.dirs⟩ := by
  unfold FS.write
  rw [setEntry_of_not_mem fs.files p c h]

/-- The descriptor/payload loop of `build-structure`, run on a state holding
none of the files it would create: every `existsSync` guard is false, so it
appends exactly the descriptor and payload entries and the include paths, in
order. -/
theorem catFold_fresh (n author : String) (rest : List BuildFile) :
    ∀ (st : FS × List String),
    (rest.map BuildFile.name).Nodup →
    (∀ f ∈ rest,
      [n, f.name ++ ".xml"] ∉ st.1.files.map Prod.fst
      ∧ [n, "sql", f.name ++ ".sql"] ∉ st.1.files.map Prod.fst
      ∧ [n, f.name ++ ".xml"] ∉ st.1.dirs
      ∧ [n, "sql", f.name ++ ".sql"] ∉ st.1.dirs
      ∧ (n ++ "/" ++ f.name ++ ".xml") ∉ st.2) →
    rest.foldl
      (fun (st : FS × List String) file =>
        let fsx := st.1
        let fsy :=
          if fsx.access [n, file.name ++ ".xml"] then fsx
          else fsx.write [n, file.name ++ ".xml"] (builtDescriptor author file)
        let fsz :=
          if fsy.access [n, "sql", file.name ++ ".sql"] then fsy
          else fsy.write [n, "sql", file.name ++ ".sql"] (.sql (payloadText file))
        let includePath := n ++ "/" ++ file.name ++ ".xml"
        (fsz, if st.2.contains includePath then st.2 else st.2 ++ [includePath])) st
    = (⟨st.1.files ++ rest.flatMap (fun f =>
          [([n, f.name ++ ".xml"], builtDescriptor author f),
           ([n, "sql", f.name ++ ".sql"], .sql (payloadText f))]),
        st.1.dirs⟩,
       st.2 ++ rest.map (fun f => n ++ "/" ++ f.name ++ ".xml")) := by
  induction rest with
  | nil => intro st _ _; simp
  | cons f rest ih =>
    intro st hnd hfr
    obtain ⟨hk1, hk2, hk3, hk4, hk5⟩ := hfr f (List.mem_cons_self f rest)
    rw [List.foldl_cons]
    dsimp only
    rw [FS.access_false st.1 [n, f.name ++ ".xml"] hk1 hk3]
    simp only [Bool.false_eq_true, if_false]
    rw [FS.write_fresh st.1 [n, f.name ++ ".xml"] (builtDescriptor author f) hk1]
    have hk2b : [n, "sql", f.name ++ ".sql"]
        ∉ (st.1.files ++ [([n, f.name ++ ".xml"], builtDescriptor author f)]).map Prod.fst := by
      rw [List.map_append]
      intro hm
      rcases List.mem_append.mp hm with h | h
      · exact hk2 h
      · simp only [List.map_cons, List.map_nil, List.mem_singleton] at h
        have := congrArg List.length h
        simp at this
    rw [FS.access_false ⟨st.1.files ++ [([n, f.name ++ ".xml"], builtDescriptor author f)],
        st.1.dirs⟩ [n, "sql", f.name ++ ".sql"] hk2b hk4]
    simp only [Bool.false_eq_true, if_false]
    rw [FS.write_fresh ⟨st.1.files ++ [([n, f.name ++ ".xml"], builtDescriptor author f)],
        st.1.dirs⟩ [n, "sql", f.name ++ ".sql"] (.sql (payloadText f)) hk2b]
    have hc5 : st.2.contains (n ++ "/" ++ f.name ++ ".xml") = false := by
      simpa using hk5
    rw [hc5]
    simp only [Bool.false_eq_true, if_false]
    rw [List.map_cons] at hnd
    have hnodup := hnd.of_cons
    have hfname : ∀ g ∈ rest, g.name ≠ f.name := by
      intro g hg he
      have : f.name ∈ rest.map BuildFile.name := by
        rw [List.mem_map]
        exact ⟨g, hg, he⟩
      exact (List.nodup_cons.mp hnd).1 this
    have hih := ih (⟨st.1.files ++ [([n, f.name ++ ".xml"], builtDescriptor author f)]
          ++ [([n, "sql", f.name ++ ".sql"], FileContent.sql (payloadText f))], st.1.dirs⟩,
        st.2 ++ [n ++ "/" ++ f.name ++ ".xml"]) hnodup ?hfr2
    case hfr2 =>
      intro g hg
      obtain ⟨hg1, hg2, hg3, hg4, hg5⟩ := hfr g (List.mem_cons_of_mem f hg)
      refine ⟨?_, ?_, hg3, hg4, ?_⟩
      · rw [List.map_append, List.map_append]
        intro hm
        rcases List.mem_append.mp hm with hm | hm
        · rcases List.mem_append.mp hm with hm | hm
          · exact hg1 hm
          · simp only [List.map_cons, List.map_nil, List.mem_singleton] at hm
            simp only [List.cons.injEq, and_true] at hm
            exact hfname g hg (append_xml_inj hm.2)
        · simp only [List.map_cons, List.map_nil, List.mem_singleton] at hm
          have := congrArg List.length hm
          simp at this
      · rw [List.map_append, List.map_append]
        intro hm
        rcases List.mem_append.mp hm with hm | hm
        · rcases List.mem_append.mp hm with hm | hm
          · exact hg2 hm
          · simp only [List.map_cons, List.map_nil, List.mem_singleton] at hm
            have := congrArg List.length hm
            simp at this
        · simp only [List.map_cons, List.map_nil, List.mem_singleton] at hm
          simp only [List.cons.injEq, and_true, true_and] at hm
          exact hfname g hg (append_sql_inj hm)
      · intro hm
        rcases List.mem_append.mp hm with hm | hm
        · exact hg5 hm
        · simp only [List.mem_singleton] at hm
          have h1 := strAppend_cancel_right hm
          exact hfname g hg (strAppend_cancel_left h1)
    rw [hih]
    simp [List.append_assoc]

theorem desc_key_mem {author version : String} {cat : BuildCategory} {f : BuildFile}
    (hf : f ∈ cat.files) :
    [cat.name, f.name ++ ".xml"] ∈ (categoryEntries author version cat).map Prod.fst := by
  rw [categoryEntries_keys]
  exact List.mem_append_left _ (List.mem_flatMap.mpr ⟨f, hf, by simp⟩)

theorem sql_key_mem {author version : String} {cat : BuildCategory} {f : BuildFile}
    (hf : f ∈ cat.files) :
    [cat.name, "sql", f.name ++ ".sql"] ∈ (categoryEntries author version cat).map Prod.fst := by
  rw [categoryEntries_keys]
  exact List.mem_append_left _ (List.mem_flatMap.mpr ⟨f, hf, by simp⟩)

theorem manifest_key_mem {author version : String} {cat : BuildCategory} :
    [masterChangelogName version cat.name] ∈ (categoryEntries author version cat).map Prod.fst := by
  rw [categoryEntries_keys]
  exact List.mem_append_right _ (by simp)

/-- On a state containing none of the category's files and neither of its
directories, `buildCategory` appends exactly `categoryEntries` and the two
directories. -/
theorem buildCategory_fresh (author version : String) (fs : FS) (cat : BuildCategory)
    (hne : cat.files ≠ [])
    (hnd : (cat.files.map BuildFile.name).Nodup)
    (hvn : validName cat.name = true)
    (hkeys : ∀ q ∈ (categoryEntries author version cat).map Prod.fst,
      q ∉ fs.files.map Prod.fst ∧ q ∉ fs.dirs)
    (hd1 : [cat.name] ∉ fs.dirs) (hd2 : [cat.name, "sql"] ∉ fs.dirs) :
    buildCategory author version fs cat
      = ⟨fs.files ++ categoryEntries author version cat,
         fs.dirs ++ [[cat.name], [cat.name, "sql"]]⟩ := by
  have hd2b : [cat.name, "sql"] ∉ fs.dirs ++ [[cat.name]] := by
    intro hm
    rcases List.mem_append.mp hm with h | h
    · exact hd2 h
    · simp at h
  have hfsb : (fs.mkdir [cat.name]).mkdir [cat.name, "sql"]
      = ⟨fs.files, fs.dirs ++ [[cat.name], [cat.name, "sql"]]⟩ := by
    rw [FS.mkdir_fresh fs [cat.name] hd1,
        FS.mkdir_fresh ⟨fs.files, fs.dirs ++ [[cat.name]]⟩ [cat.name, "sql"] hd2b]
    simp
  have hdirNe : ∀ q ∈ (categoryEntries author version cat).map Prod.fst,
      q ∉ fs.dirs ++ [[cat.name], [cat.name, "sql"]] := by
    intro q hq hm
    rcases List.mem_append.mp hm with h | h
    · exact (hkeys q hq).2 h
    · have hne2 := categoryEntries_keys_ne_dirs hvn hq
      rcases List.mem_cons.mp h with h1 | h1
      · exact hne2.1 h1
      · simp only [List.mem_singleton] at h1
        exact hne2.2 h1
  have hmani := hkeys _ (@manifest_key_mem author version cat)
  have hmanid := hdirNe _ (@manifest_key_mem author version cat)
  have hfr : ∀ f ∈ cat.files,
      [cat.name, f.name ++ ".xml"] ∉ fs.files.map Prod.fst
      ∧ [cat.name, "sql", f.name ++ ".sql"] ∉ fs.files.map Prod.fst
      ∧ [cat.name, f.name ++ ".xml"] ∉ fs.dirs ++ [[cat.name], [cat.name, "sql"]]
      ∧ [cat.name, "sql", f.name ++ ".sql"] ∉ fs.dirs ++ [[cat.name], [cat.name, "sql"]]
      ∧ (cat.name ++ "/" ++ f.name ++ ".xml") ∉ ([] : List String) := by
    intro f hf
    exact ⟨(hkeys _ (desc_key_mem hf)).1, (hkeys _ (sql_key_mem hf)).1,
      hdirNe _ (desc_key_mem hf), hdirNe _ (sql_key_mem hf), by simp⟩
  have hmfm : [masterChangelogName version cat.name]
      ∉ (cat.files.flatMap (fun f =>
          [([cat.name, f.name ++ ".xml"], builtDescriptor author f),
           ([cat.name, "sql", f.name ++ ".sql"], FileContent.sql (payloadText f))])).map
        Prod.fst := by
    rw [List.map_flatMap]
    intro hm
    rw [List.mem_flatMap] at hm
    obtain ⟨f, hf, hk⟩ := hm
    simp only [List.map_cons, List.map_nil, List.mem_cons, List.mem_singleton,
      List.not_mem_nil] at hk
    rcases hk with h | h | h
    · have := congrArg List.length h
      simp at this
    · have := congrArg List.length h
      simp at this
    · exact h
  have hwf : [masterChangelogName version cat.name]
      ∉ (fs.files ++ cat.files.flatMap (fun f =>
          [([cat.name, f.name ++ ".xml"], builtDescriptor author f),
           ([cat.name, "sql", f.name ++ ".sql"], FileContent.sql (payloadText f))])).map
        Prod.fst := by
    rw [List.map_append]
    intro hm
    rcases List.mem_append.mp hm with h | h
    · exact hmani.1 h
    · exact hmfm h
  unfold buildCategory
  rw [if_pos hne]
  dsimp only
  rw [hfsb]
  rw [show ("changelog-" ++ version ++ "-" ++ strToUpper cat.name ++ ".xml")
    = masterChangelogName version cat.name from rfl]
  rw [FS.access_false ⟨fs.files, fs.dirs ++ [[cat.name], [cat.name, "sql"]]⟩
    [masterChangelogName version cat.name] hmani.1 hmanid]
  simp only [Bool.false_eq_true, if_false]
  rw [catFold_fresh cat.name author cat.files
    (⟨fs.files, fs.dirs ++ [[cat.name], [cat.name, "sql"]]⟩, ([] : List String)) hnd hfr]
  dsimp only
  rw [FS.write_fresh ⟨fs.files ++ cat.files.flatMap (fun f =>
        [([cat.name, f.name ++ ".xml"], builtDescriptor author f),
         ([cat.name, "sql", f.name ++ ".sql"], FileContent.sql (payloadText f))]),
      fs.dirs ++ [[cat.name], [cat.name, "sql"]]⟩
    [masterChangelogName version cat.name] _ hwf]
  simp [categoryEntries, List.append_assoc]

/-- Folding `buildCategory` over pairwise-distinct valid categories on a state
fresh for all of them appends each category's entries and directories in
order. -/
theorem catListFold_fresh (author version : String) :
    ∀ (rest : List BuildCategory) (fs : FS),
    ((rest.map (fun cat => strToUpper cat.name)).Nodup) →
    (∀ cat ∈ rest, validName cat.name = true ∧ cat.files ≠ []
      ∧ (cat.files.map BuildFile.name).Nodup) →
    (∀ cat ∈ rest,
      (∀ q ∈ (categoryEntries author version cat).map Prod.fst,
        q ∉ fs.files.map Prod.fst ∧ q ∉ fs.dirs)
      ∧ [cat.name] ∉ fs.dirs ∧ [cat.name, "sql"] ∉ fs.dirs) →
    rest.foldl (buildCategory author version) fs
      = ⟨fs.files ++ rest.flatMap (categoryEntries author version),
         fs.dirs ++ rest.flatMap (fun cat => [[cat.name], [cat.name, "sql"]])⟩ := by
  intro rest
  induction rest with
  | nil =>
    intro fs _ _ _
    simp
  | cons c rest ih =>
    intro fs hnd hval hfr
    obtain ⟨hvc, hnec, hndc⟩ := hval c (List.mem_cons_self c rest)
    obtain ⟨hkc, hd1c, hd2c⟩ := hfr c (List.mem_cons_self c rest)
    rw [List.foldl_cons]
    rw [buildCategory_fresh author version fs c hnec hndc hvc hkc hd1c hd2c]
    rw [ih ⟨fs.files ++ categoryEntries author version c,
          fs.dirs ++ [[c.name], [c.name, "sql"]]⟩
        (by rw [List.map_cons] at hnd; exact hnd.of_cons)
        (fun cat hc => hval cat (List.mem_cons_of_mem c hc))
        ?hfr2]
    · simp [List.append_assoc]
    case hfr2 =>
      intro cat hcat
      obtain ⟨hk0, hdd1, hdd2⟩ := hfr cat (List.mem_cons_of_mem c hcat)
      have hup : strToUpper c.name ≠ strToUpper cat.name := by
        rw [List.map_cons] at hnd
        intro he
        exact (List.nodup_cons.mp hnd).1
          (by rw [he]; exact List.mem_map.mpr ⟨cat, hcat, rfl⟩)
      have hname : cat.name ≠ c.name := fun he => hup (by rw [he])
      refine ⟨?_, ?_, ?_⟩
      · intro q hq
        constructor
        · rw [List.map_append]
          intro hm
          rcases List.mem_append.mp hm with h | h
          · exact (hk0 q hq).1 h
          · exact categoryEntries_keys_disjoint hup hq h
        · intro hm
          rcases List.mem_append.mp hm with h | h
          · exact (hk0 q hq).2 h
          · have hne2 := categoryEntries_keys_ne_dirs hvc hq
            rcases List.mem_cons.mp h with h1 | h1
            · exact hne2.1 h1
            · simp only [List.mem_singleton] at h1
              exact hne2.2 h1
      · intro hm
        rcases List.mem_append.mp hm with h | h
        · exact hdd1 h
        · rcases List.mem_cons.mp h with h1 | h1
          · exact hname (by simpa using h1)
          · simp only [List.mem_singleton] at h1
            have := congrArg List.length h1
            simp at this
      · intro hm
        rcases List.mem_append.mp hm with h | h
        · exact hdd2 h
        · rcases List.mem_cons.mp h with h1 | h1
          · have := congrArg List.length h1
            simp at this
          · simp only [List.mem_singleton] at h1
            simp only [List.cons.injEq, and_true] at h1
            exact hname h1

/-- `build-structure` on an empty working directory with a valid config
produces exactly the built state and answers success. -/
theorem buildStructure_empty (cfg : BuildConfig) (h : ValidConfig cfg) :
    buildStructure FS.empty cfg = (builtFS cfg, true) := by
  obtain ⟨hva, hver, hnecats, hnd, hcats⟩ := h
  have htag : FS.empty.write [tagName] (.tagFile (cfg.version ++ ".0.0"))
      = (⟨[([tagName], .tagFile (cfg.version ++ ".0.0"))], []⟩ : FS) := rfl
  have hfold := catListFold_fresh cfg.author cfg.version cfg.categories
      ⟨[([tagName], .tagFile (cfg.version ++ ".0.0"))], []⟩ hnd
      (fun cat hc => ⟨(hcats cat hc).1, (hcats cat hc).2.1, (hcats cat hc).2.2.1⟩)
      ?hfr
  case hfr =>
    intro cat hcat
    refine ⟨?_, by simp, by simp⟩
    intro q hq
    refine ⟨?_, by simp⟩
    simp only [List.map_cons, List.map_nil]
    intro hm
    rcases List.mem_cons.mp hm with h1 | h1
    · exact categoryEntries_keys_ne_tag hq h1
    · simp at h1
  have hmk : [mainName]
      ∉ (([tagName], FileContent.tagFile (cfg.version ++ ".0.0"))
          :: cfg.categories.flatMap (categoryEntries cfg.author cfg.version)).map Prod.fst := by
    simp only [List.map_cons]
    intro hm
    rcases List.mem_cons.mp hm with h1 | h1
    · exact (by decide : ([mainName] : List String) ≠ [tagName]) h1
    · rw [List.map_flatMap, List.mem_flatMap] at h1
      obtain ⟨cat, _, hk⟩ := h1
      exact categoryEntries_keys_ne_main hver hk rfl
  have hread : (⟨([tagName], FileContent.tagFile (cfg.version ++ ".0.0"))
        :: cfg.categories.flatMap (categoryEntries cfg.author cfg.version),
      cfg.categories.flatMap (fun cat => [[cat.name], [cat.name, "sql"]])⟩ : FS).read [mainName]
      = none := lookupEntry_of_not_mem _ _ hmk
  have hfilter : cfg.categories.filter (fun cat => cat.files ≠ []) = cfg.categories :=
    List.filter_eq_self.mpr (fun cat hc => by simpa using (hcats cat hc).2.1)
  unfold buildStructure
  dsimp only
  rw [show FS.empty.access [tagName] = false from rfl]
  simp only [Bool.false_eq_true, if_false]
  rw [htag, hfold]
  simp only [List.singleton_append, List.nil_append]
  unfold buildMain
  rw [hread]
  dsimp only
  rw [hfilter]
  rw [FS.write_fresh (⟨([tagName], FileContent.tagFile (cfg.version ++ ".0.0"))
        :: cfg.categories.flatMap (categoryEntries cfg.author cfg.version),
      cfg.categories.flatMap (fun cat => [[cat.name], [cat.name, "sql"]])⟩ : FS)
    [mainName] _ hmk]
  simp [builtFS, builtFiles, builtDirs, masterChangelogName, List.append_assoc]

/-! ## Reading the built state -/

theorem built_read_tag (cfg : BuildConfig) (h : ValidConfig cfg) :
    (builtFS cfg).read [tagName] = some (.tagFile (cfg.version ++ ".0.0")) :=
  lookupEntry_of_mem _ _ _
    (by
      show _ ∈ builtFiles cfg
      unfold builtFiles
      exact List.mem_append_left _ (List.mem_cons_self _ _))
    (builtFiles_keys_nodup cfg h)

theorem built_read_main (cfg : BuildConfig) (h : ValidConfig cfg) :
    (builtFS cfg).read [mainName] = some (.changelog ("tag-database.xml"
      :: cfg.categories.map (fun cat => masterChangelogName cfg.version cat.name)) true) :=
  lookupEntry_of_mem _ _ _
    (by
      show _ ∈ builtFiles cfg
      unfold builtFiles
      exact List.mem_append_right _ (List.mem_singleton.mpr rfl))
    (builtFiles_keys_nodup cfg h)

theorem built_read_manifest (cfg : BuildConfig) (h : ValidConfig cfg)
    {cat : BuildCategory} (hcat : cat ∈ cfg.categories) :
    (builtFS cfg).read [masterChangelogName cfg.version cat.name]
      = some (.changelog (cat.files.map (fun f => cat.name ++ "/" ++ f.name ++ ".xml")) true) :=
  lookupEntry_of_mem _ _ _
    (by
      show _ ∈ builtFiles cfg
      unfold builtFiles
      refine List.mem_append_left _ (List.mem_cons_of_mem _ ?_)
      rw [List.mem_flatMap]
      refine ⟨cat, hcat, ?_⟩
      unfold categoryEntries
      exact List.mem_append_right _ (List.mem_singleton.mpr rfl))
    (builtFiles_keys_nodup cfg h)

theorem built_read_desc (cfg : BuildConfig) (h : ValidConfig cfg)
    {cat : BuildCategory} (hcat : cat ∈ cfg.categories)
    {f : BuildFile} (hf : f ∈ cat.files) :
    (builtFS cfg).read [cat.name, f.name ++ ".xml"] = some (builtDescriptor cfg.author f) :=
  lookupEntry_of_mem _ _ _
    (by
      show _ ∈ builtFiles cfg
      unfold builtFiles
      refine List.mem_append_left _ (List.mem_cons_of_mem _ ?_)
      rw [List.mem_flatMap]
      refine ⟨cat, hcat, ?_⟩
      unfold categoryEntries
      refine List.mem_append_left _ ?_
      rw [List.mem_flatMap]
      exact ⟨f, hf, by simp⟩)
    (builtFiles_keys_nodup cfg h)

theorem built_read_sql (cfg : BuildConfig) (h : ValidConfig cfg)
    {cat : BuildCategory} (hcat : cat ∈ cfg.categories)
    {f : BuildFile} (hf : f ∈ cat.files) :
    (builtFS cfg).read [cat.name, "sql", f.name ++ ".sql"] = some (.sql (payloadText f)) :=
  lookupEntry_of_mem _ _ _
    (by
      show _ ∈ builtFiles cfg
      unfold builtFiles
      refine List.mem_append_left _ (List.mem_cons_of_mem _ ?_)
      rw [List.mem_flatMap]
      refine ⟨cat, hcat, ?_⟩
      unfold categoryEntries
      refine List.mem_append_left _ ?_
      rw [List.mem_flatMap]
      exact ⟨f, hf, by simp⟩)
    (builtFiles_keys_nodup cfg h)

theorem built_manifestIncludes (cfg : BuildConfig) (h : ValidConfig cfg)
    {cat : BuildCategory} (hcat : cat ∈ cfg.categories) :
    manifestIncludes (builtFS cfg) (masterChangelogName cfg.version cat.name)
      = cat.files.map (fun f => cat.name ++ "/" ++ f.name ++ ".xml") := by
  unfold manifestIncludes
  rw [built_read_manifest cfg h hcat]
  rfl

/-- Shape of an arbitrary key of the built state. -/
theorem mem_builtFiles_keys {cfg : BuildConfig} {q : List String}
    (hq : q ∈ (builtFiles cfg).map Prod.fst) :
    q = [tagName] ∨ q = [mainName]
    ∨ ∃ cat ∈ cfg.categories, q ∈ (categoryEntries cfg.author cfg.version cat).map Prod.fst := by
  unfold builtFiles at hq
  rw [List.map_append, List.map_cons, List.map_flatMap] at hq
  rcases List.mem_append.mp hq with h1 | h1
  · rcases List.mem_cons.mp h1 with h2 | h2
    · exact Or.inl h2
    · rw [List.mem_flatMap] at h2
      obtain ⟨cat, hcat, hk⟩ := h2
      exact Or.inr (Or.inr ⟨cat, hcat, hk⟩)
  · simp only [List.map_cons, List.map_nil, List.mem_singleton] at h1
    exact Or.inr (Or.inl h1)

/-- Shape of an arbitrary directory of the built state. -/
theorem mem_builtDirs {cfg : BuildConfig} {q : List String} (hq : q ∈ builtDirs cfg) :
    ∃ cat ∈ cfg.categories, q = [cat.name] ∨ q = [cat.name, "sql"] := by
  unfold builtDirs at hq
  rw [List.mem_flatMap] at hq
  obtain ⟨cat, hcat, hk⟩ := hq
  rcases List.mem_cons.mp hk with h1 | h1
  · exact ⟨cat, hcat, Or.inl h1⟩
  · simp only [List.mem_singleton] at h1
    exact ⟨cat, hcat, Or.inr h1⟩

/-- Names-distinctness of the categories of a valid config. -/
theorem valid_cat_eq {cfg : BuildConfig} (h : ValidConfig cfg)
    {c1 c2 : BuildCategory} (h1 : c1 ∈ cfg.categories) (h2 : c2 ∈ cfg.categories)
    (hn : c1.name = c2.name) : c1 = c2 := by
  obtain ⟨_, _, _, hnd, _⟩ := h
  exact List.inj_on_of_nodup_map hnd h1 h2 (by rw [hn])

/-- Entries listed inside a category directory of the built state. -/
theorem built_readdir_cat {cfg : BuildConfig} (h : ValidConfig cfg)
    {cat : BuildCategory} (hcat : cat ∈ cfg.categories)
    {n : String} (hn : n ∈ (builtFS cfg).readdir [cat.name]) :
    n = "sql" ∨ ∃ f ∈ cat.files, n = f.name ++ ".xml" := by
  rw [FS.mem_readdir] at hn
  simp only [List.cons_append, List.nil_append] at hn
  rcases hn with h1 | h1
  · rcases mem_builtFiles_keys h1 with h2 | h2 | ⟨cat2, hcat2, hk⟩
    · have := congrArg List.length h2
      simp at this
    · have := congrArg List.length h2
      simp at this
    · rcases mem_categoryEntries_keys hk with ⟨f, hf, h3 | h3⟩ | h3
      · simp only [List.cons.injEq, and_true] at h3
        have hc2 : cat = cat2 := valid_cat_eq h hcat hcat2 h3.1
        exact Or.inr ⟨f, hc2 ▸ hf, h3.2⟩
      · have := congrArg List.length h3
        simp at this
      · have := congrArg List.length h3
        simp at this
  · obtain ⟨cat2, hcat2, h2 | h2⟩ := mem_builtDirs h1
    · have := congrArg List.length h2
      simp at this
    · simp only [List.cons.injEq, and_true] at h2
      exact Or.inl h2.2
  
/-- Entries listed inside a category's `sql` directory of the built state. -/
theorem built_readdir_sql {cfg : BuildConfig} (h : ValidConfig cfg)
    {cat : BuildCategory} (hcat : cat ∈ cfg.categories)
    {n : String} (hn : n ∈ (builtFS cfg).readdir [cat.name, "sql"]) :
    ∃ f ∈ cat.files, n = f.name ++ ".sql" := by
  rw [FS.mem_readdir] at hn
  simp only [List.cons_append, List.nil_append] at hn
  rcases hn with h1 | h1
  · rcases mem_builtFiles_keys h1 with h2 | h2 | ⟨cat2, hcat2, hk⟩
    · have := congrArg List.length h2
      simp at this
    · have := congrArg List.length h2
      simp at this
    · rcases mem_categoryEntries_keys hk with ⟨f, hf, h3 | h3⟩ | h3
      · have := congrArg List.length h3
        simp at this
      · simp only [List.cons.injEq, and_true] at h3
        have hc2 : cat = cat2 := valid_cat_eq h hcat hcat2 h3.1
        exact ⟨f, hc2 ▸ hf, h3.2.2⟩
      · have := congrArg List.length h3
        simp at this
  · obtain ⟨cat2, hcat2, h2 | h2⟩ := mem_builtDirs h1
    · have := congrArg List.length h2
      simp at this
    · have := congrArg List.length h2
      simp at this

/-- Entries listed at the root of the built state. -/
theorem built_readdir_root {cfg : BuildConfig} 
    {n : String} (hn : n ∈ (builtFS cfg).readdir []) :
    n = tagName ∨ n = mainName
    ∨ (∃ cat ∈ cfg.categories, n = masterChangelogName cfg.version cat.name)
    ∨ (∃ cat ∈ cfg.categories, n = cat.name) := by
  rw [FS.mem_readdir] at hn
  simp only [List.nil_append] at hn
  rcases hn with h1 | h1
  · rcases mem_builtFiles_keys h1 with h2 | h2 | ⟨cat2, hcat2, hk⟩
    · exact Or.inl (by injection h2)
    · exact Or.inr (Or.inl (by injection h2))
    · rcases mem_categoryEntries_keys hk with ⟨f, hf, h3 | h3⟩ | h3
      · have := congrArg List.length h3
        simp at this
      · have := congrArg List.length h3
        simp at this
      · exact Or.inr (Or.inr (Or.inl ⟨cat2, hcat2, by injection h3⟩))
  · obtain ⟨cat2, hcat2, h2 | h2⟩ := mem_builtDirs h1
    · exact Or.inr (Or.inr (Or.inr ⟨cat2, hcat2, by injection h2⟩))
    · have := congrArg List.length h2
      simp at this

theorem built_access_desc (cfg : BuildConfig) (h : ValidConfig cfg)
    {cat : BuildCategory} (hcat : cat ∈ cfg.categories)
    {f : BuildFile} (hf : f ∈ cat.files) :
    (builtFS cfg).access [cat.name, f.name ++ ".xml"] = true := by
  unfold FS.access FS.fileExists
  rw [built_read_desc cfg h hcat hf]
  simp

theorem built_access_sql (cfg : BuildConfig) (h : ValidConfig cfg)
    {cat : BuildCategory} (hcat : cat ∈ cfg.categories)
    {f : BuildFile} (hf : f ∈ cat.files) :
    (builtFS cfg).access [cat.name, "sql", f.name ++ ".sql"] = true := by
  unfold FS.access FS.fileExists
  rw [built_read_sql cfg h hcat hf]
  simp

/-! ## The built state passes every check -/

theorem built_getVersion (cfg : BuildConfig) (h : ValidConfig cfg) :
    getVersion (builtFS cfg) = some cfg.version := by
  have hver : numericVersion cfg.version = true := h.2.1
  unfold getVersion
  rw [built_read_tag cfg h]
  unfold parseTagVersion
  have htw : strTakeWhile Char.isDigit (cfg.version ++ ".0.0") = cfg.version := by
    unfold strTakeWhile
    rw [strData_append]
    rw [takeWhile_all_append Char.isDigit cfg.version.data ".0.0".data
      (numericVersion_chars hver) ?hd]
    case hd =>
      intro d hd
      rw [show (".0.0".data) = ['.', '0', '.', '0'] from rfl] at hd
      simp only [List.head?_cons, Option.some.injEq] at hd
      rw [← hd]
      decide
  have hvne : cfg.version ≠ "" := by
    intro he
    apply numericVersion_ne_empty hver
    rw [he]
  dsimp only
  rw [htw]
  rw [show cfg.version.data.length = ("" ++ cfg.version).data.length from by simp]
  rw [show (cfg.version ++ ".0.0") = ("" ++ cfg.version) ++ ".0.0" from by simp]
  rw [strDrop_append_left ("" ++ cfg.version) ".0.0"]
  rw [if_pos]
  simp only [Bool.and_eq_true, decide_eq_true_eq]
  exact ⟨hvne, by decide⟩

theorem replaceFirstList_at_suffix (l : List Char) (p0 : Char) (pat : List Char)
    (h : p0 ∉ l) :
    replaceFirstList (p0 :: pat) [] (l ++ p0 :: pat) = l := by
  induction l with
  | nil =>
    simp only [List.nil_append]
    unfold replaceFirstList
    rw [if_pos (listIsPrefixOf_refl _)]
    simp
  | cons c cs ih =>
    simp only [List.mem_cons] at h
    push_neg at h
    rw [List.cons_append]
    unfold replaceFirstList
    rw [if_neg ?hp]
    · rw [ih h.2]
    case hp =>
      simp only [List.isPrefixOf, Bool.and_eq_true, beq_iff_eq]
      intro hc
      exact h.1 hc.1

theorem strReplaceFirst_sql (g : String) (h : '.' ∉ g.data) :
    strReplaceFirst (g ++ ".sql") ".sql" "" = g := by
  apply strEq_of_data
  show replaceFirstList ".sql".data "".data (g ++ ".sql").data = g.data
  rw [strData_append]
  rw [show (".sql".data) = '.' :: ['s', 'q', 'l'] from rfl,
      show ("".data) = ([] : List Char) from rfl]
  exact replaceFirstList_at_suffix g.data '.' ['s', 'q', 'l'] h

theorem declPatternAt_no_dot {v s : String} (h : '.' ∉ s.data) : declPatternAt v s = false := by
  unfold declPatternAt
  split
  · have hne : ¬ (strDrop (strDrop s ("changelog-" ++ v ++ "-").data.length)
        (strTakeWhile (fun ch => ch.isUpper || ch = '_')
          (strDrop s ("changelog-" ++ v ++ "-").data.length)).data.length = ".xml") := by
      intro he
      have hd := congrArg String.data he
      have hdot : '.' ∈ (".xml".data) := by decide
      rw [← hd] at hdot
      have h1 : '.' ∈ s.data := by
        unfold strDrop at hdot
        exact List.mem_of_mem_drop (List.mem_of_mem_drop hdot)
      exact h h1
    dsimp only
    rw [decide_eq_false hne, Bool.and_false]
  · rfl

theorem declPatternTest_no_dot {v s : String} (h : '.' ∉ s.data) :
    declPatternTest v s = false := by
  unfold declPatternTest
  rw [List.any_eq_false]
  intro i _
  rw [Bool.not_eq_true]
  apply declPatternAt_no_dot
  intro hm
  unfold strDrop at hm
  exact h (List.mem_of_mem_drop hm)


theorem declPattern_to_isCat {v n : String} (hv : numericVersion v = true)
    (hpat : declPatternAt v (masterChangelogName v n) = true) :
    isCategoryManifestName (masterChangelogName v n) = true := by
  have hvne : v ≠ "" := by
    intro he
    apply numericVersion_ne_empty hv
    rw [he]
  have hm : masterChangelogName v n
      = ("changelog-" ++ v ++ "-") ++ (strToUpper n ++ ".xml") := by
    unfold masterChangelogName
    rw [strAppend_assoc]
  rw [hm] at hpat
  simp only [declPatternAt, strStartsWith_append_left, if_true,
    strDrop_append_left ("changelog-" ++ v ++ "-") (strToUpper n ++ ".xml"),
    Bool.and_eq_true, decide_eq_true_eq] at hpat
  obtain ⟨hus, hdrop⟩ := hpat
  have hm2 : masterChangelogName v n
      = "changelog-" ++ (v ++ ("-" ++ (strToUpper n ++ ".xml"))) := by
    rw [hm, strAppend_assoc, strAppend_assoc]
  rw [hm2]
  have htw : strTakeWhile Char.isDigit (v ++ ("-" ++ (strToUpper n ++ ".xml"))) = v := by
    unfold strTakeWhile
    rw [strData_append]
    rw [takeWhile_all_append Char.isDigit v.data _ (numericVersion_chars hv) ?hd]
    case hd =>
      intro d hd
      rw [show (("-" ++ (strToUpper n ++ ".xml")).data)
        = '-' :: (strToUpper n ++ ".xml").data from rfl] at hd
      simp only [List.head?_cons, Option.some.injEq] at hd
      rw [← hd]
      decide
  simp only [isCategoryManifestName, strStartsWith_append_left, if_true]
  rw [show (10 : Nat) = ("changelog-" : String).data.length from rfl]
  rw [strDrop_append_left "changelog-" (v ++ ("-" ++ (strToUpper n ++ ".xml")))]
  rw [htw]
  rw [if_pos hvne]
  rw [strDrop_append_left v ("-" ++ (strToUpper n ++ ".xml"))]
  simp only [strStartsWith_append_left, if_true]
  rw [show (1 : Nat) = ("-" : String).data.length from rfl]
  rw [strDrop_append_left "-" (strToUpper n ++ ".xml")]
  simp only [Bool.and_eq_true, decide_eq_true_eq]
  exact ⟨hus, hdrop⟩

theorem c_not_mem_master_tail {v n : String} (hv : numericVersion v = true) :
    'c' ∉ (masterChangelogName v n).data.drop 1 := by
  rw [masterChangelogName_data]
  rw [show ("changelog-".data) = 'c' :: "hangelog-".data from rfl]
  rw [List.cons_append, List.drop_succ_cons, List.drop_zero]
  intro hm
  rcases List.mem_append.mp hm with h1 | h1
  · exact absurd h1 (by decide)
  rcases List.mem_append.mp h1 with h2 | h2
  · exact absurd (numericVersion_chars hv 'c' h2) (by decide)
  rcases List.mem_append.mp h2 with h3 | h3
  · exact absurd h3 (by decide)
  rcases List.mem_append.mp h3 with h4 | h4
  · rw [show ((strToUpper n).data) = n.data.map Char.toUpper from rfl] at h4
    obtain ⟨x, _, hx⟩ := List.mem_map.mp h4
    exact toUpper_ne_c x hx
  · exact absurd h4 (by decide)

theorem declPatternTest_master {v n : String} (hv : numericVersion v = true)
    (ht : declPatternTest v (masterChangelogName v n) = true) :
    declPatternAt v (masterChangelogName v n) = true := by
  unfold declPatternTest at ht
  rw [List.any_eq_true] at ht
  obtain ⟨i, _, hat⟩ := ht
  rcases Nat.eq_zero_or_pos i with hz | hpos
  · subst hz
    exact hat
  · exfalso
    unfold declPatternAt at hat
    split at hat
    case isTrue hstart =>
      unfold strStartsWith at hstart
      rw [List.isPrefixOf_iff_prefix] at hstart
      obtain ⟨t, hteq⟩ := hstart
      have hc : 'c' ∈ (strDrop (masterChangelogName v n) i).data := by
        rw [← hteq]
        have hc0 : 'c' ∈ ("changelog-" ++ v ++ "-").data := by
          rw [strData_append, strData_append]
          exact List.mem_append_left _ (List.mem_append_left _ (by decide))
        exact List.mem_append_left t hc0
      have hc1 : 'c' ∈ (masterChangelogName v n).data.drop 1 := by
        unfold strDrop at hc
        have he : (masterChangelogName v n).data.drop i
            = ((masterChangelogName v n).data.drop 1).drop (i - 1) := by
          rw [List.drop_drop]
          congr 1
          omega
        rw [he] at hc
        exact List.mem_of_mem_drop hc
      exact c_not_mem_master_tail hv hc1
    case isFalse _ =>
      simp at hat

theorem built_checkOrphaned (cfg : BuildConfig) (h : ValidConfig cfg)
    {cat : BuildCategory} (hcat : cat ∈ cfg.categories) :
    checkOrphaned (builtFS cfg) cat.name cfg.version = ⟨0, []⟩ := by
  have hcatv := h.2.2.2.2 cat hcat
  have hA : orphanA (builtFS cfg) cat.name cfg.version = [] := by
    unfold orphanA
    rw [List.filter_eq_nil_iff]
    intro f hf
    have hmem : f ∈ ((builtFS cfg).readdir [cat.name]).filter isDescriptorName := by
      by_cases hacc : (builtFS cfg).access [cat.name] = true
      · rwa [if_pos hacc] at hf
      · rw [if_neg hacc] at hf
        simp at hf
    rw [List.mem_filter] at hmem
    obtain ⟨hmem1, hdesc⟩ := hmem
    rcases built_readdir_cat h hcat hmem1 with hsql | ⟨g, hg, hxml⟩
    · rw [hsql] at hdesc
      exact absurd hdesc (by decide)
    · subst hxml
      rw [built_manifestIncludes cfg h hcat]
      have hmemL : ((cat.name ++ "/" ++ g.name) ++ ".xml")
          ∈ cat.files.map (fun f2 => cat.name ++ "/" ++ f2.name ++ ".xml") :=
        List.mem_map.mpr ⟨g, hg, rfl⟩
      have hc : (cat.files.map (fun f2 => cat.name ++ "/" ++ f2.name ++ ".xml")).contains
          (cat.name ++ "/" ++ (g.name ++ ".xml")) = true := by
        rw [← strAppend_assoc (cat.name ++ "/") g.name ".xml"]
        simpa using hmemL
      intro hpred
      rw [Bool.and_eq_true, Bool.not_eq_true', Bool.not_eq_true'] at hpred
      rw [hc] at hpred
      simp at hpred
  have hB : orphanB (builtFS cfg) cat.name = [] := by
    unfold orphanB
    rw [List.filter_eq_nil_iff]
    intro n hn
    have hmem : n ∈ (builtFS cfg).readdir [cat.name, "sql"] := by
      by_cases hacc : (builtFS cfg).access [cat.name, "sql"] = true
      · rwa [if_pos hacc] at hn
      · rw [if_neg hacc] at hn
        simp at hn
    obtain ⟨g, hg, hsq⟩ := built_readdir_sql h hcat hmem
    subst hsq
    have hdot : '.' ∉ g.name.data := validName_no_dot (hcatv.2.2.2 g hg)
    rw [strReplaceFirst_sql g.name hdot]
    rw [built_access_desc cfg h hcat hg]
    simp
  rw [checkOrphaned_eq, hA, hB]
  rfl

theorem built_checkReferences (cfg : BuildConfig) (h : ValidConfig cfg)
    {cat : BuildCategory} (hcat : cat ∈ cfg.categories) :
    checkReferences (builtFS cfg) cat.name cfg.version = ⟨0, []⟩ := by
  have hcatv := h.2.2.2.2 cat hcat
  have hA : danglingA (builtFS cfg) cat.name cfg.version = [] := by
    unfold danglingA
    rw [built_manifestIncludes cfg h hcat]
    rw [List.filter_eq_nil_iff]
    intro file hfile
    obtain ⟨g, hg, hfe⟩ := List.mem_map.mp hfile
    subst hfe
    have hslash : strHasChar (cat.name ++ "/" ++ g.name ++ ".xml") '/' = true := by
      unfold strHasChar
      rw [strData_append, strData_append, strData_append]
      simp
    have hsp : splitSlash (cat.name ++ "/" ++ g.name ++ ".xml")
        = [cat.name, g.name ++ ".xml"] := by
      rw [strAppend_assoc (cat.name ++ "/") g.name ".xml"]
      refine splitSlash_pair cat.name (g.name ++ ".xml") (validName_no_slash hcatv.1) ?_
      rw [strData_append]
      intro hm
      rcases List.mem_append.mp hm with h1 | h1
      · exact validName_no_slash (hcatv.2.2.2 g hg) h1
      · exact absurd h1 (by decide)
    have hres : resolveRefPath cat.name (cat.name ++ "/" ++ g.name ++ ".xml")
        = [cat.name, g.name ++ ".xml"] := by
      unfold resolveRefPath
      rw [hslash]
      show splitSlash (cat.name ++ "/" ++ g.name ++ ".xml") = _
      exact hsp
    rw [hres, built_access_desc cfg h hcat hg]
    simp
  have hB : (danglingB (builtFS cfg) cat.name).flatten = [] := by
    rw [List.flatten_eq_nil_iff]
    intro l hl
    unfold danglingB at hl
    obtain ⟨xmlFile, hx, hlf⟩ := List.mem_map.mp hl
    subst hlf
    have hmem : xmlFile ∈ ((builtFS cfg).readdir [cat.name]).filter isDescriptorName := by
      by_cases hacc : (builtFS cfg).access [cat.name] = true
      · rwa [if_pos hacc] at hx
      · rw [if_neg hacc] at hx
        simp at hx
    rw [List.mem_filter] at hmem
    obtain ⟨hmem1, hdesc⟩ := hmem
    rcases built_readdir_cat h hcat hmem1 with hsql | ⟨g, hg, hxml⟩
    · rw [hsql] at hdesc
      exact absurd hdesc (by decide)
    · subst hxml
      rw [built_read_desc cfg h hcat hg]
      simp only [builtDescriptor, pathAttrs]
      have hsp2 : splitSlash ("sql/" ++ g.name ++ ".sql") = ["sql", g.name ++ ".sql"] := by
        have h1 : ("sql/" : String) = "sql" ++ "/" := by decide
        rw [h1, strAppend_assoc]
        refine splitSlash_pair "sql" (g.name ++ ".sql") (by decide) ?_
        rw [strData_append]
        intro hm
        rcases List.mem_append.mp hm with h2 | h2
        · exact validName_no_slash (hcatv.2.2.2 g hg) h2
        · exact absurd h2 (by decide)
      have hacc2 : (builtFS cfg).access
          (cat.name :: splitSlash ("sql/" ++ g.name ++ ".sql")) = true := by
        rw [hsp2]
        exact built_access_sql cfg h hcat hg
      simp [hacc2]
  rw [checkReferences_eq, hA, hB]
  rfl

theorem built_checkMainChangelog (cfg : BuildConfig) (h : ValidConfig cfg) :
    checkMainChangelog (builtFS cfg) cfg.version = ⟨0, []⟩ := by
  have hver : numericVersion cfg.version = true := h.2.1
  rw [checkMainChangelog_eq (builtFS cfg) cfg.version _ (built_read_main cfg h)]
  have hMU : mainUndeclared (builtFS cfg) cfg.version
      (fileAttrs (.changelog ("tag-database.xml"
        :: cfg.categories.map (fun cat => masterChangelogName cfg.version cat.name)) true))
      = [] := by
    unfold mainUndeclared
    rw [List.filter_eq_nil_iff]
    intro C hC
    have hCU : strToUpper C = C := by
      simp only [fixedCategories, List.mem_cons, List.not_mem_nil, or_false] at hC
      rcases hC with rfl | rfl | rfl | rfl | rfl <;> decide
    have hname : ("changelog-" ++ cfg.version ++ "-" ++ C ++ ".xml")
        = masterChangelogName cfg.version C := by
      unfold masterChangelogName
      rw [hCU]
    rw [hname]
    by_cases hacc : (builtFS cfg).access [masterChangelogName cfg.version C] = true
    · have hor : [masterChangelogName cfg.version C] ∈ (builtFiles cfg).map Prod.fst
          ∨ [masterChangelogName cfg.version C] ∈ builtDirs cfg := by
        unfold FS.access FS.fileExists FS.dirExists at hacc
        rw [Bool.or_eq_true] at hacc
        rcases hacc with h1 | h1
        · left
          by_contra hnm
          rw [show ((builtFS cfg).read [masterChangelogName cfg.version C])
            = lookupEntry (builtFiles cfg) [masterChangelogName cfg.version C] from rfl] at h1
          rw [lookupEntry_of_not_mem _ _ hnm] at h1
          simp at h1
        · right
          simpa using h1
      rcases hor with h1 | h1
      · rcases mem_builtFiles_keys h1 with h2 | h2 | ⟨cat2, hcat2, hk⟩
        · exact absurd (by injection h2) (masterChangelogName_ne_tag cfg.version C)
        · exact absurd (by injection h2) (masterChangelogName_ne_main hver C)
        · rcases mem_categoryEntries_keys hk with ⟨f, hf, h3 | h3⟩ | h3
          · have := congrArg List.length h3
            simp at this
          · have := congrArg List.length h3
            simp at this
          · have heq : masterChangelogName cfg.version C
                = masterChangelogName cfg.version cat2.name := by injection h3
            have hcont : (fileAttrs (FileContent.changelog ("tag-database.xml"
                :: cfg.categories.map (fun cat => masterChangelogName cfg.version cat.name))
                true)).contains (masterChangelogName cfg.version C) = true := by
              rw [heq]
              have hm2 : masterChangelogName cfg.version cat2.name
                  ∈ "tag-database.xml" :: cfg.categories.map
                    (fun cat => masterChangelogName cfg.version cat.name) :=
                List.mem_cons_of_mem _ (List.mem_map.mpr ⟨cat2, hcat2, rfl⟩)
              exact List.elem_eq_true_of_mem hm2
            intro hpred
            rw [Bool.and_eq_true, Bool.not_eq_true'] at hpred
            rw [hcont] at hpred
            simp at hpred
      · obtain ⟨cat2, hcat2, h2 | h2⟩ := mem_builtDirs h1
        · have h4 : masterChangelogName cfg.version C = cat2.name := by injection h2
          exact absurd h4.symm
            (validName_ne_masterChangelogName (h.2.2.2.2 cat2 hcat2).1 _ _)
        · have := congrArg List.length h2
          simp at this
    · rw [Bool.not_eq_true] at hacc
      simp [hacc]
  rw [hMU]
  rfl

theorem built_checkDecls (cfg : BuildConfig) (h : ValidConfig cfg) :
    (checkChangelogDeclarations (builtFS cfg) cfg.version).errors = 0 := by
  have hver : numericVersion cfg.version = true := h.2.1
  rw [checkChangelogDeclarations_eq (builtFS cfg) cfg.version _ (built_read_main cfg h)]
  have hD : declUndeclared (builtFS cfg) cfg.version
      (fileAttrs (.changelog ("tag-database.xml"
        :: cfg.categories.map (fun cat => masterChangelogName cfg.version cat.name)) true))
      = [] := by
    unfold declUndeclared
    rw [List.filter_eq_nil_iff]
    intro n hn
    rcases built_readdir_root hn with h1 | h1 | ⟨cat2, hcat2, h1⟩ | ⟨cat2, hcat2, h1⟩
    · subst h1
      simp
    · subst h1
      simp
    · subst h1
      by_cases ht : declPatternTest cfg.version (masterChangelogName cfg.version cat2.name)
          = true
      · have hic := declPattern_to_isCat hver (declPatternTest_master hver ht)
        have hcont : ((fileAttrs (FileContent.changelog ("tag-database.xml"
            :: cfg.categories.map (fun cat => masterChangelogName cfg.version cat.name))
            true)).filter isCategoryManifestName).contains
            (masterChangelogName cfg.version cat2.name) = true := by
          have hm2 : masterChangelogName cfg.version cat2.name
              ∈ ("tag-database.xml" :: cfg.categories.map
                (fun cat => masterChangelogName cfg.version cat.name)).filter
                isCategoryManifestName := by
            rw [List.mem_filter]
            exact ⟨List.mem_cons_of_mem _ (List.mem_map.mpr ⟨cat2, hcat2, rfl⟩), hic⟩
          exact List.elem_eq_true_of_mem hm2
        intro hpred
        rw [Bool.and_eq_true, Bool.not_eq_true'] at hpred
        rw [hcont] at hpred
        simp at hpred
      · rw [Bool.not_eq_true] at ht
        simp [ht]
    · subst h1
      have hfalse : declPatternTest cfg.version cat2.name = false :=
        declPatternTest_no_dot (validName_no_dot (h.2.2.2.2 cat2 hcat2).1)
      simp [hfalse]
  rw [hD]
  simp

/-- **C2.** For every valid input (author and category/unit names accepted by
`validateInput`, a numeric version token, at least one category, categories
pairwise distinct after uppercasing, each with at least one distinctly named
unit), running `build-structure` on an initially empty working directory
succeeds, and the full check suite on the resulting state — the tag-version
resolution, `check-orphaned` and `check-references` for every requested
category, `check-main-changelog` and `check-changelog-declarations` — produces
zero error findings. -/
theorem c2_roundtrip_zero_findings (cfg : BuildConfig) (h : ValidConfig cfg) :
    (buildStructure FS.empty cfg).2 = true
    ∧ getVersion (buildStructure FS.empty cfg).1 = some cfg.version
    ∧ (∀ cat ∈ cfg.categories,
        checkOrphaned (buildStructure FS.empty cfg).1 cat.name cfg.version = ⟨0, []⟩
        ∧ checkReferences (buildStructure FS.empty cfg).1 cat.name cfg.version = ⟨0, []⟩)
    ∧ checkMainChangelog (buildStructure FS.empty cfg).1 cfg.version = ⟨0, []⟩
    ∧ (checkChangelogDeclarations (buildStructure FS.empty cfg).1 cfg.version).errors = 0 := by
  rw [buildStructure_empty cfg h]
  exact ⟨rfl, built_getVersion cfg h,
    fun cat hcat => ⟨built_checkOrphaned cfg h hcat, built_checkReferences cfg h hcat⟩,
    built_checkMainChangelog cfg h, built_checkDecls cfg h⟩

/-- The scenario-1 build input: author `jdoe`, version `50`, one `tables`
category with one `employee` unit. -/
def demoConfig : BuildConfig := ⟨"jdoe", "50", [⟨"tables", [⟨"employee", ""⟩]⟩]⟩

theorem c2_witness :
    ValidConfig demoConfig
    ∧ ((buildStructure FS.empty demoConfig).2 = true
      ∧ getVersion (buildStructure FS.empty demoConfig).1 = some demoConfig.version
      ∧ (∀ cat ∈ demoConfig.categories,
          checkOrphaned (buildStructure FS.empty demoConfig).1 cat.name demoConfig.version
            = ⟨0, []⟩
          ∧ checkReferences (buildStructure FS.empty demoConfig).1 cat.name demoConfig.version
            = ⟨0, []⟩)
      ∧ checkMainChangelog (buildStructure FS.empty demoConfig).1 demoConfig.version = ⟨0, []⟩
      ∧ (checkChangelogDeclarations (buildStructure FS.empty demoConfig).1
          demoConfig.version).errors = 0) :=
  ⟨by unfold ValidConfig demoConfig; decide,
   c2_roundtrip_zero_findings demoConfig (by unfold ValidConfig demoConfig; decide)⟩
